import Mathlib

/-!
Verification development for the AnkerSPA core
(`src/specify_cli/spa/{workflow,orchestrator,simple_yaml}.py`).

The Python code is shallowly embedded: Python dicts become association
lists carried in insertion order, Python functions become Lean functions,
raised exceptions become `Except.error` carrying the raised message, and
machine-independent Python integers become `Int`/`Nat`.  Python's
`list.sort()` / `sorted()` (a stable comparison sort over strings compared
by code point) is embedded as a structurally recursive insertion sort over
the code-point lexicographic order; on the lists this program sorts, a
stable sort's output is uniquely determined by the multiset of elements
and the order (duplicate strings are identical), so any correct sort
embeds `sorted()` faithfully.
-/

/-! ### String comparison (Python `str` comparison by code points) -/

/-- Lexicographic `≤` on char lists, comparing code points exactly as
Python compares strings. Structurally recursive so that it evaluates by
`rfl`/`decide`. -/
def charListLe : List Char → List Char → Bool
  | [], _ => true
  | _ :: _, [] => false
  | a :: as, b :: bs =>
    if a.toNat < b.toNat then true
    else if b.toNat < a.toNat then false
    else charListLe as bs

/-- Python string `<=` (code-point lexicographic). -/
def strLe (a b : String) : Bool := charListLe a.toList b.toList

theorem charListLe_refl : ∀ l : List Char, charListLe l l = true
  | [] => rfl
  | a :: as => by simp [charListLe, charListLe_refl as]

theorem strLe_refl (a : String) : strLe a a = true := charListLe_refl _

theorem charListLe_total : ∀ x y : List Char, charListLe x y = true ∨ charListLe y x = true
  | [], _ => Or.inl rfl
  | _ :: _, [] => Or.inr rfl
  | a :: as, b :: bs => by
    by_cases hab : a.toNat < b.toNat
    · exact Or.inl (by simp [charListLe, hab])
    · by_cases hba : b.toNat < a.toNat
      · exact Or.inr (by simp [charListLe, hba])
      · rcases charListLe_total as bs with h | h
        · exact Or.inl (by simp [charListLe, hab, hba, h])
        · exact Or.inr (by simp [charListLe, hab, hba, h])

theorem strLe_total (a b : String) : strLe a b = true ∨ strLe b a = true :=
  charListLe_total _ _

theorem charListLe_head_le {a b : Char} {as bs : List Char}
    (h : charListLe (a :: as) (b :: bs) = true) : a.toNat ≤ b.toNat := by
  by_cases hab : a.toNat < b.toNat
  · omega
  · by_cases hba : b.toNat < a.toNat
    · simp [charListLe, hab, hba] at h
    · omega

theorem charListLe_antisymm : ∀ x y : List Char,
    charListLe x y = true → charListLe y x = true → x = y
  | [], [], _, _ => rfl
  | [], _ :: _, _, h => by simp [charListLe] at h
  | _ :: _, [], h, _ => by simp [charListLe] at h
  | a :: as, b :: bs, h₁, h₂ => by
    have hab := charListLe_head_le h₁
    have hba := charListLe_head_le h₂
    have hv : a.toNat = b.toNat := by omega
    have hc : a = b := Char.ext (UInt32.toNat.inj hv)
    subst hc
    simp only [charListLe, Nat.lt_irrefl, if_false, if_neg] at h₁ h₂
    · exact congrArg (a :: ·) (charListLe_antisymm as bs h₁ h₂)

theorem strLe_antisymm {a b : String} (h₁ : strLe a b = true) (h₂ : strLe b a = true) :
    a = b :=
  String.toList_inj.mp (charListLe_antisymm _ _ h₁ h₂)

theorem charListLe_trans : ∀ x y z : List Char,
    charListLe x y = true → charListLe y z = true → charListLe x z = true
  | [], _, _, _, _ => rfl
  | _ :: _, [], _, h, _ => by simp [charListLe] at h
  | _ :: _, _ :: _, [], _, h => by simp [charListLe] at h
  | a :: as, b :: bs, c :: cs, h₁, h₂ => by
    have hab := charListLe_head_le h₁
    have hbc := charListLe_head_le h₂
    by_cases hac : a.toNat < c.toNat
    · simp [charListLe, hac]
    · have hav : a.toNat = b.toNat := by omega
      have hbv : b.toNat = c.toNat := by omega
      simp only [charListLe, show ¬ a.toNat < b.toNat by omega,
        show ¬ b.toNat < a.toNat by omega, if_false, if_neg, ite_false] at h₁
      simp only [charListLe, show ¬ b.toNat < c.toNat by omega,
        show ¬ c.toNat < b.toNat by omega, if_false, if_neg, ite_false] at h₂
      simp only [charListLe, hac, show ¬ c.toNat < a.toNat by omega,
        if_false, if_neg, ite_false]
      exact charListLe_trans as bs cs h₁ h₂

theorem strLe_trans {a b c : String} (h₁ : strLe a b = true) (h₂ : strLe b c = true) :
    strLe a c = true := charListLe_trans _ _ _ h₁ h₂

/-! ### Stable sort (Python `sorted` / `list.sort`) -/

/-- Insert into a sorted list, keeping existing order among equal keys
(the same stable behavior as Python's sort). -/
def insertSorted (a : String) : List String → List String
  | [] => [a]
  | b :: l => if strLe a b then a :: b :: l else b :: insertSorted a l

/-- Embedding of Python `sorted(list_of_strings)`. -/
def sortStrings : List String → List String
  | [] => []
  | a :: l => insertSorted a (sortStrings l)

theorem insertSorted_perm (a : String) : ∀ l : List String, List.Perm (insertSorted a l) (a :: l)
  | [] => List.Perm.refl _
  | b :: l => by
    by_cases h : strLe a b = true
    · simp [insertSorted, h]
    · simp only [insertSorted, h, if_false, if_neg, ite_false]
      exact ((insertSorted_perm a l).cons b).trans (List.Perm.swap a b l)

theorem sortStrings_perm : ∀ l : List String, List.Perm (sortStrings l) l
  | [] => List.Perm.refl _
  | a :: l => (insertSorted_perm a (sortStrings l)).trans ((sortStrings_perm l).cons a)

theorem insertSorted_sorted (a : String) : ∀ {l : List String},
    l.Pairwise (fun x y => strLe x y = true) →
    (insertSorted a l).Pairwise (fun x y => strLe x y = true) := by
  intro l
  induction l with
  | nil => intro _; simp [insertSorted]
  | cons b l ih =>
    intro h
    rcases List.pairwise_cons.mp h with ⟨hb, hl⟩
    by_cases hab : strLe a b = true
    · simp only [insertSorted, hab, if_true, ite_true]
      refine List.pairwise_cons.mpr ⟨?_, h⟩
      intro x hx
      rcases List.mem_cons.mp hx with rfl | hx
      · exact hab
      · exact strLe_trans hab (hb x hx)
    · have hba : strLe b a = true := (strLe_total a b).resolve_left hab
      simp only [insertSorted, hab, if_false, if_neg, ite_false]
      refine List.pairwise_cons.mpr ⟨?_, ih hl⟩
      intro x hx
      have hx' := (insertSorted_perm a l).mem_iff.mp hx
      rcases List.mem_cons.mp hx' with rfl | hx'
      · exact hba
      · exact hb x hx'

theorem sortStrings_sorted : ∀ l : List String,
    (sortStrings l).Pairwise (fun x y => strLe x y = true)
  | [] => List.Pairwise.nil
  | a :: l => insertSorted_sorted a (sortStrings_sorted l)

theorem sorted_eq_of_perm : ∀ {l₁ l₂ : List String},
    List.Perm l₁ l₂ →
    l₁.Pairwise (fun x y => strLe x y = true) →
    l₂.Pairwise (fun x y => strLe x y = true) → l₁ = l₂ := by
  intro l₁ l₂ hp h₁ h₂
  have : IsAntisymm String (fun x y => strLe x y = true) := ⟨fun _ _ => strLe_antisymm⟩
  exact List.eq_of_perm_of_sorted hp h₁ h₂

/-- `sorted()` depends only on the multiset of elements. -/
theorem sortStrings_congr_perm {l₁ l₂ : List String} (h : List.Perm l₁ l₂) :
    sortStrings l₁ = sortStrings l₂ :=
  sorted_eq_of_perm ((sortStrings_perm l₁).trans (h.trans (sortStrings_perm l₂).symm))
    (sortStrings_sorted l₁) (sortStrings_sorted l₂)

/-! ### Workflow model (`workflow.py`) -/

/-- `StageDefinition` from `workflow.py` (a frozen dataclass). -/
structure StageDefinition where
  key : String
  label : String
  agent : String
  depends_on : List String
  outputs : List String
  human_review_enabled : Bool
  human_review_prompt : String
  final_stage : Bool
deriving DecidableEq, Repr, Inhabited

/-- `WorkflowDefinition` from `workflow.py`.  The Python field
`stages : Dict[str, StageDefinition]` is embedded as an association list
in the dict's insertion order; a Python dict additionally guarantees that
the keys are distinct, which theorems carry as a `Nodup` hypothesis. -/
structure WorkflowDefinition where
  stages : List (String × StageDefinition)
deriving DecidableEq, Repr

namespace WorkflowDefinition

/-- The dict's key list, in iteration (insertion) order. -/
def keysOf (w : WorkflowDefinition) : List String := w.stages.map Prod.fst

/-- Python `self.stages[k]` / `self.stages.get(k)`. -/
def lookupStage (w : WorkflowDefinition) (k : String) : Option StageDefinition :=
  (w.stages.find? (fun p => p.1 == k)).map Prod.snd

/-- `depends_on` of the stage stored under `k` (`[]` when `k` is absent;
the scheduler only consults it on present keys). -/
def depsOf (w : WorkflowDefinition) (k : String) : List String :=
  ((w.lookupStage k).map StageDefinition.depends_on).getD []

/-- The first `(stage key, dependency)` pair whose dependency is not a
declared stage, in the iteration order of the validation loop of
`ordered_stages` (`for key, stage in self.stages.items(): for dep in
stage.depends_on: if dep not in self.stages: raise ...`). -/
def firstUnknownDep (w : WorkflowDefinition) : Option (String × String) :=
  w.stages.findSome? (fun p =>
    (p.2.depends_on.find? (fun d => !(w.keysOf.contains d))).map (fun d => (p.1, d)))

/-- In-degree of `k` after the validation loop: one per occurrence of a
dependency in `depends_on` (duplicates counted, exactly as
`indegree[key] += 1` counts them). -/
def indeg0 (w : WorkflowDefinition) (k : String) : Int :=
  ((w.depsOf k).length : Int)

/-- `adjacency[d]` as built by the validation loop: for each stage `k`
(in dict order), one entry per occurrence of `d` in `k`'s `depends_on`. -/
def adjacencyList (w : WorkflowDefinition) (d : String) : List String :=
  w.stages.flatMap (fun p =>
    p.2.depends_on.filterMap (fun x => if x = d then some p.1 else none))

/-- `sorted(adjacency[d])` as consumed by the scheduling loop. -/
def sortedDependents (w : WorkflowDefinition) (d : String) : List String :=
  sortStrings (w.adjacencyList d)

/-- One `indegree[neighbor] -= 1; if indegree[neighbor] == 0:
queue.append(neighbor)` step of the scheduling loop, acting on the
pending queue and the in-degree table. -/
def decStep (qi : List String × (String → Int)) (n : String) :
    List String × (String → Int) :=
  let d' := qi.2 n - 1
  let ind' : String → Int := fun x => if x = n then d' else qi.2 x
  if d' = 0 then (qi.1 ++ [n], ind') else (qi.1, ind')

/-- The inner `for neighbor in sorted(adjacency[current_key])` loop. -/
def processNeighbors (ns : List String) (q : List String) (D : String → Int) :
    List String × (String → Int) :=
  ns.foldl decStep (q, D)

/-- The outer `while queue:` loop of `ordered_stages`, collecting the
popped keys.  `dep` is the sorted-adjacency function.  The loop is given
explicit fuel; `kahnLoop_spec` below shows that `|stages| + 1` units are
never exhausted (each key enters the queue at most once), so the fueled
function coincides with the Python loop, which always terminates. -/
def kahnLoop (dep : String → List String) :
    Nat → List String → (String → Int) → List String → List String
  | 0, _, _, order => order
  | _ + 1, [], _, order => order
  | fuel + 1, current :: rest, indeg, order =>
    let qi := processNeighbors (dep current) rest indeg
    kahnLoop dep fuel qi.1 qi.2 (order ++ [current])

/-- `queue = [key for key, degree in indegree.items() if degree == 0];
queue.sort()`. -/
def seedQueue (w : WorkflowDefinition) : List String :=
  sortStrings ((w.keysOf).filter (fun k => w.indeg0 k == 0))

/-- Message of the `ValueError` raised on an undeclared dependency. -/
def unknownDepMsg (k d : String) : String :=
  "Workflow 阶段 " ++ k ++ " 依赖未知阶段 " ++ d

/-- Message of the `ValueError` raised when a cycle is detected. -/
def cycleMsg : String := "Workflow 存在循环依赖，无法拓扑排序"

/-- `WorkflowDefinition.ordered_stages`, at the level of stage keys
(the loop manipulates keys; the stage objects are attached by lookup in
`ordered_stages` below, mirroring `order.append(self.stages[current_key])`). -/
def ordered_stage_keys (w : WorkflowDefinition) : Except String (List String) :=
  match w.firstUnknownDep with
  | some kd => .error (unknownDepMsg kd.1 kd.2)
  | none =>
    let order := kahnLoop w.sortedDependents (w.stages.length + 1)
      w.seedQueue (w.indeg0) []
    if order.length = w.stages.length then .ok order else .error cycleMsg

/-- `WorkflowDefinition.ordered_stages` from `workflow.py`. -/
def ordered_stages (w : WorkflowDefinition) : Except String (List StageDefinition) :=
  (w.ordered_stage_keys).map (fun l => l.map (fun k => (w.lookupStage k).getD default))

/-- The dependency edge relation of the graph: `dependsDirect w d k`
holds when stage `k` declares `d` in its `depends_on`. -/
def dependsDirect (w : WorkflowDefinition) (d k : String) : Prop :=
  ∃ s, (k, s) ∈ w.stages ∧ d ∈ s.depends_on

/-- The dependency relation has a (directed) cycle. -/
def HasCycle (w : WorkflowDefinition) : Prop :=
  ∃ k, Relation.TransGen (w.dependsDirect) k k

end WorkflowDefinition

/-! ### Basic facts about the workflow embedding -/

namespace WorkflowDefinition

/-- In a dict (distinct keys), two entries with the same key coincide. -/
theorem key_unique {l : List (String × StageDefinition)}
    (hnd : (l.map Prod.fst).Nodup) {p q : String × StageDefinition}
    (hp : p ∈ l) (hq : q ∈ l) (hk : p.1 = q.1) : p = q := by
  induction l with
  | nil => cases hp
  | cons a t ih =>
    rcases List.mem_cons.mp hp with rfl | hp' <;>
      rcases List.mem_cons.mp hq with rfl | hq'
    · rfl
    · exfalso
      have : q.1 ∈ t.map Prod.fst := List.mem_map_of_mem Prod.fst hq'
      rw [← hk] at this
      exact (List.nodup_cons.mp hnd).1 this
    · exfalso
      have : p.1 ∈ t.map Prod.fst := List.mem_map_of_mem Prod.fst hp'
      rw [hk] at this
      exact (List.nodup_cons.mp hnd).1 this
    · exact ih (List.nodup_cons.mp hnd).2 hp' hq'

theorem mem_keysOf {w : WorkflowDefinition} {k : String} :
    k ∈ w.keysOf ↔ ∃ s, (k, s) ∈ w.stages := by
  unfold keysOf
  constructor
  · intro h
    rcases List.mem_map.mp h with ⟨p, hp, hk⟩
    refine ⟨p.2, ?_⟩
    have : p = (k, p.2) := by
      cases p
      simp only at hk
      rw [hk]
    rwa [this] at hp
  · rintro ⟨s, hs⟩
    exact List.mem_map.mpr ⟨(k, s), hs, rfl⟩

theorem lookupStage_some_of_mem {w : WorkflowDefinition}
    (hnd : w.keysOf.Nodup) {k : String} {s : StageDefinition}
    (h : (k, s) ∈ w.stages) : w.lookupStage k = some s := by
  unfold lookupStage
  have hex : ∃ p, p ∈ w.stages ∧ (fun p : String × StageDefinition => p.1 == k) p := by
    exact ⟨(k, s), h, by simp⟩
  rcases List.find?_isSome.mpr hex |> Option.isSome_iff_exists.mp with ⟨p, hp⟩
  have hpm := List.mem_of_find?_eq_some hp
  have hpk : p.1 = k := by simpa using List.find?_some hp
  have : p = (k, s) := key_unique hnd hpm h hpk
  rw [hp, this]
  rfl

theorem mem_of_lookupStage_some {w : WorkflowDefinition} {k : String}
    {s : StageDefinition} (h : w.lookupStage k = some s) : (k, s) ∈ w.stages := by
  unfold lookupStage at h
  rcases Option.map_eq_some'.mp h with ⟨p, hp, hps⟩
  have hpm := List.mem_of_find?_eq_some hp
  have hpk : p.1 = k := by simpa using List.find?_some hp
  have : p = (k, s) := by
    cases p
    simp only at hpk hps
    rw [hpk, hps]
  rwa [this] at hpm

theorem depsOf_eq {w : WorkflowDefinition} (hnd : w.keysOf.Nodup)
    {k : String} {s : StageDefinition} (h : (k, s) ∈ w.stages) :
    w.depsOf k = s.depends_on := by
  unfold depsOf
  rw [lookupStage_some_of_mem hnd h]
  rfl

theorem depsOf_eq_nil_of_not_mem {w : WorkflowDefinition} {k : String}
    (h : k ∉ w.keysOf) : w.depsOf k = [] := by
  unfold depsOf
  cases hl : w.lookupStage k with
  | none => rfl
  | some s =>
    exact absurd (mem_keysOf.mpr ⟨s, mem_of_lookupStage_some hl⟩) h

theorem firstUnknownDep_eq_none_iff {w : WorkflowDefinition} :
    w.firstUnknownDep = none ↔
      ∀ p ∈ w.stages, ∀ d ∈ p.2.depends_on, d ∈ w.keysOf := by
  unfold firstUnknownDep
  rw [List.findSome?_eq_none_iff]
  constructor
  · intro h p hp d hd
    have := h p hp
    by_contra hnk
    have hfind : p.2.depends_on.find? (fun d => !(w.keysOf.contains d)) ≠ none := by
      intro hn
      have := List.find?_eq_none.mp hn d hd
      simp only [Bool.not_eq_true', Bool.not_eq_false] at this
      exact hnk (by simpa using this)
    rcases Option.ne_none_iff_exists'.mp hfind with ⟨d', hd'⟩
    rw [hd'] at this
    simp at this
  · intro h p hp
    have : p.2.depends_on.find? (fun d => !(w.keysOf.contains d)) = none := by
      rw [List.find?_eq_none]
      intro d hd
      simp only [Bool.not_eq_true', Bool.not_eq_false]
      simpa using h p hp d hd
    rw [this]
    rfl

theorem mem_adjacencyList {w : WorkflowDefinition} {d x : String} :
    x ∈ w.adjacencyList d ↔ w.dependsDirect d x := by
  unfold adjacencyList dependsDirect
  rw [List.mem_flatMap]
  constructor
  · rintro ⟨p, hp, hx⟩
    rcases List.mem_filterMap.mp hx with ⟨y, hy, hxy⟩
    by_cases hyd : y = d
    · simp only [hyd, if_true, ite_true, Option.some.injEq] at hxy
      subst hxy
      exact ⟨p.2, by simpa using hp, hyd ▸ hy⟩
    · simp [hyd] at hxy
  · rintro ⟨s, hs, hd⟩
    refine ⟨(x, s), hs, List.mem_filterMap.mpr ⟨d, hd, by simp⟩⟩

theorem mem_sortedDependents {w : WorkflowDefinition} {d x : String} :
    x ∈ w.sortedDependents d ↔ w.dependsDirect d x := by
  unfold sortedDependents
  rw [(sortStrings_perm _).mem_iff]
  exact mem_adjacencyList

end WorkflowDefinition

namespace WorkflowDefinition

theorem filterMap_dep_eq_replicate : ∀ (deps : List String) (d k : String),
    deps.filterMap (fun y => if y = d then some k else none) =
      List.replicate (deps.count d) k
  | [], _, _ => rfl
  | y :: t, d, k => by
    by_cases hyd : y = d
    · subst hyd
      have hc : List.count y (y :: t) = t.count y + 1 := by simp [List.count_cons]
      simp only [List.filterMap_cons, if_true, ite_true, hc, List.replicate_succ]
      exact congrArg (k :: ·) (filterMap_dep_eq_replicate t y k)
    · have hc : List.count d (y :: t) = t.count d := by simp [List.count_cons, hyd]
      simp only [List.filterMap_cons, hyd, if_false, ite_false, hc]
      exact filterMap_dep_eq_replicate t d k

theorem count_flatMap_dep : ∀ (l : List (String × StageDefinition)),
    (l.map Prod.fst).Nodup → ∀ (d x : String),
    ((l.flatMap (fun p =>
        p.2.depends_on.filterMap (fun y => if y = d then some p.1 else none))).count x)
      = (match l.find? (fun p => p.1 == x) with
         | some p => p.2.depends_on.count d
         | none => 0)
  | [], _, d, x => by simp
  | p :: t, hnd, d, x => by
    have hnd' : (t.map Prod.fst).Nodup := (List.nodup_cons.mp (by simpa using hnd)).2
    have hfresh : p.1 ∉ t.map Prod.fst := (List.nodup_cons.mp (by simpa using hnd)).1
    rw [List.flatMap_cons, List.count_append, filterMap_dep_eq_replicate,
      List.count_replicate]
    by_cases hpx : p.1 = x
    · have hfind : (p :: t).find? (fun q => q.1 == x) = some p := by
        simp [List.find?_cons, hpx]
      rw [hfind]
      have hzero : (t.flatMap (fun q =>
          q.2.depends_on.filterMap (fun y => if y = d then some q.1 else none))).count x = 0 := by
        rw [List.count_eq_zero]
        intro hmem
        rcases List.mem_flatMap.mp hmem with ⟨q, hq, hx⟩
        rw [filterMap_dep_eq_replicate] at hx
        have : x = q.1 := (List.eq_of_mem_replicate hx)
        exact hfresh (hpx ▸ this ▸ List.mem_map_of_mem Prod.fst hq)
      rw [hzero, hpx]
      simp
    · have hfind : (p :: t).find? (fun q => q.1 == x) = t.find? (fun q => q.1 == x) := by
        simp [List.find?_cons, hpx]
      rw [hfind, ← count_flatMap_dep t hnd' d x]
      simp [hpx]

theorem count_adjacencyList {w : WorkflowDefinition} (hnd : w.keysOf.Nodup)
    (d x : String) : (w.adjacencyList d).count x = (w.depsOf x).count d := by
  have h := count_flatMap_dep w.stages hnd d x
  unfold adjacencyList
  rw [h]
  unfold depsOf lookupStage
  cases hf : w.stages.find? (fun p => p.1 == x) <;> simp [hf]

theorem count_sortedDependents {w : WorkflowDefinition} (hnd : w.keysOf.Nodup)
    (d x : String) : (w.sortedDependents d).count x = (w.depsOf x).count d :=
  ((sortStrings_perm (w.adjacencyList d)).count_eq x).trans (count_adjacencyList hnd d x)

end WorkflowDefinition

namespace WorkflowDefinition

/-- Characterization of one pass of the inner neighbor loop: every
neighbor's in-degree drops by its multiplicity in `ns`, and the keys
appended to the queue are exactly those whose in-degree reaches `0`
(each appended once).  The hypothesis — each in-degree dominates the
multiplicity — is established by the loop invariant at every call site. -/
theorem processNeighbors_spec : ∀ (ns : List String) (q : List String) (D : String → Int),
    (∀ x, (ns.count x : Int) ≤ D x) →
    ∃ newly, processNeighbors ns q D = (q ++ newly, fun x => D x - (ns.count x : Int)) ∧
      newly.Nodup ∧ (∀ x, x ∈ newly ↔ x ∈ ns ∧ D x = (ns.count x : Int))
  | [], q, D, _ => by
    refine ⟨[], ?_, List.nodup_nil, by simp⟩
    simp only [processNeighbors, List.foldl_nil, List.append_nil]
    refine Prod.ext rfl ?_
    funext x
    simp
  | n :: tl, q, D, H => by
    have hn1 : (1 : Int) ≤ D n := by
      have := H n
      have hc : 1 ≤ List.count n (n :: tl) := by simp [List.count_cons]
      omega
    have hcount_cons_n : List.count n (n :: tl) = List.count n tl + 1 := by
      simp [List.count_cons]
    have hcount_cons_ne : ∀ x, x ≠ n → List.count x (n :: tl) = List.count x tl := by
      intro x hx
      simp [List.count_cons, Ne.symm hx]
    have hstep : processNeighbors (n :: tl) q D
        = processNeighbors tl ((decStep (q, D) n).1) ((decStep (q, D) n).2) := rfl
    by_cases hd : D n - 1 = 0
    · -- the neighbor reaches in-degree 0 and is appended
      have hDn : D n = 1 := by omega
      have htln : List.count n tl = 0 := by
        have := H n
        rw [hcount_cons_n] at this
        omega
      have hnotl : n ∉ tl := List.count_eq_zero.mp htln
      have hdec : decStep (q, D) n =
          (q ++ [n], fun x => if x = n then D n - 1 else D x) := by
        simp only [decStep, hd, if_true, ite_true]
      have H' : ∀ x, (tl.count x : Int) ≤ (fun x => if x = n then D n - 1 else D x) x := by
        intro x
        by_cases hx : x = n
        · subst hx
          simp [htln, hd]
        · have := H x
          rw [hcount_cons_ne x hx] at this
          simpa [hx] using this
      rcases processNeighbors_spec tl (q ++ [n])
          (fun x => if x = n then D n - 1 else D x) H' with ⟨newly, heq, hnd, hmem⟩
      refine ⟨n :: newly, ?_, ?_, ?_⟩
      · rw [hstep, hdec, heq]
        refine Prod.ext ?_ ?_
        · simp
        · funext x
          by_cases hx : x = n
          · subst hx
            simp [hDn, hcount_cons_n, htln]
          · have := hcount_cons_ne x hx
            simp only [hx, if_false, ite_false]
            rw [this]
      · refine List.nodup_cons.mpr ⟨?_, hnd⟩
        intro hmemn
        exact hnotl ((hmem n).mp hmemn).1
      · intro x
        constructor
        · intro hx
          rcases List.mem_cons.mp hx with rfl | hx'
          · exact ⟨List.mem_cons_self _ _, by rw [hDn, hcount_cons_n, htln]; simp⟩
          · rcases (hmem x).mp hx' with ⟨hxtl, hxD⟩
            have hxn : x ≠ n := fun h => hnotl (h ▸ hxtl)
            refine ⟨List.mem_cons_of_mem _ hxtl, ?_⟩
            rw [hcount_cons_ne x hxn]
            simpa [hxn] using hxD
        · rintro ⟨hxmem, hxD⟩
          rcases List.mem_cons.mp hxmem with rfl | hxtl
          · exact List.mem_cons_self _ _
          · by_cases hxn : x = n
            · exact hxn ▸ List.mem_cons_self _ _
            · refine List.mem_cons_of_mem _ ((hmem x).mpr ⟨hxtl, ?_⟩)
              rw [hcount_cons_ne x hxn] at hxD
              simpa [hxn] using hxD
    · -- the neighbor's in-degree stays positive; nothing is appended here
      have hDn2 : (2 : Int) ≤ D n ∨ List.count n tl + 1 ≤ 0 := by
        have := H n
        rw [hcount_cons_n] at this
        left
        omega
      have hdec : decStep (q, D) n =
          (q, fun x => if x = n then D n - 1 else D x) := by
        simp only [decStep, hd, if_false, ite_false]
      have H' : ∀ x, (tl.count x : Int) ≤ (fun x => if x = n then D n - 1 else D x) x := by
        intro x
        by_cases hx : x = n
        · subst hx
          have := H x
          rw [hcount_cons_n] at this
          simp only [if_true, ite_true]
          push_cast at this ⊢
          omega
        · have := H x
          rw [hcount_cons_ne x hx] at this
          simpa [hx] using this
      rcases processNeighbors_spec tl q
          (fun x => if x = n then D n - 1 else D x) H' with ⟨newly, heq, hnd, hmem⟩
      refine ⟨newly, ?_, hnd, ?_⟩
      · rw [hstep, hdec, heq]
        refine Prod.ext rfl ?_
        funext x
        by_cases hx : x = n
        · subst hx
          simp only [if_true, ite_true, hcount_cons_n]
          push_cast
          ring
        · have := hcount_cons_ne x hx
          simp only [hx, if_false, ite_false]
          rw [this]
      · intro x
        rw [hmem x]
        by_cases hx : x = n
        · subst hx
          constructor
          · rintro ⟨hxtl, hxD⟩
            refine ⟨List.mem_cons_self _ _, ?_⟩
            rw [hcount_cons_n]
            simp only [if_true, ite_true] at hxD
            push_cast at hxD ⊢
            omega
          · rintro ⟨_, hxD⟩
            rw [hcount_cons_n] at hxD
            rcases hDn2 with h2 | h2
            · have hxtl : x ∈ tl := by
                by_contra hno
                have : List.count x tl = 0 := List.count_eq_zero.mpr hno
                rw [this] at hxD
                push_cast at hxD
                omega
              refine ⟨hxtl, ?_⟩
              simp only [if_true, ite_true]
              push_cast at hxD ⊢
              omega
            · omega
        · rw [hcount_cons_ne x hx]
          simp [hx]

end WorkflowDefinition

namespace WorkflowDefinition

theorem filter_contains_append_singleton (l o : List String) (c : String)
    (hc : c ∉ o) :
    (l.filter (fun d => !(o.contains d))).length
      = (l.filter (fun d => !((o ++ [c]).contains d))).length + l.count c := by
  induction l with
  | nil => rfl
  | cons d t ih =>
    have e₁ : ((d :: t).filter (fun d => !(o.contains d))).length
        = (t.filter (fun d => !(o.contains d))).length + (if d ∈ o then 0 else 1) := by
      by_cases hdo : d ∈ o <;> simp [List.filter_cons, List.contains, hdo]
    have e₂ : ((d :: t).filter (fun d => !((o ++ [c]).contains d))).length
        = (t.filter (fun d => !((o ++ [c]).contains d))).length
          + (if d ∈ o ∨ d = c then 0 else 1) := by
      by_cases h : d ∈ o ∨ d = c
      · have h' : ¬ (d ∉ o ∧ ¬ d = c) := by tauto
        simp [List.filter_cons, List.contains, List.mem_append, h, h']
      · have h1 : d ∉ o := fun hm => h (Or.inl hm)
        have h2 : ¬ d = c := fun hm => h (Or.inr hm)
        have hcontains : ((o ++ [c]).contains d) = false := by
          simp [List.contains, List.mem_append, h1, h2]
        rw [if_neg h]
        simp only [List.filter_cons, hcontains, Bool.not_false, if_true, ite_true]
        simp [h1, h2]
    have e₃ : (d :: t).count c = t.count c + (if d = c then 1 else 0) := by
      by_cases hdc : d = c <;> simp [List.count_cons, hdc]
    rw [e₁, e₂, e₃]
    by_cases hdo : d ∈ o
    · by_cases hdc : d = c
      · exact absurd (hdc ▸ hdo) hc
      · rw [if_pos hdo, if_pos (Or.inl hdo), if_neg hdc]
        omega
    · by_cases hdc : d = c
      · rw [if_neg hdo, if_pos (Or.inr hdc), if_pos hdc]
        omega
      · rw [if_neg hdo, if_neg (show ¬ (d ∈ o ∨ d = c) by tauto), if_neg hdc]
        omega

theorem count_le_filter_length {l o : List String} {c : String} (hc : c ∉ o) :
    l.count c ≤ (l.filter (fun d => !(o.contains d))).length := by
  rw [filter_contains_append_singleton l o c hc]
  omega

theorem nodup_length_le {l l' : List String} (h : l.Nodup) (h' : l'.Nodup)
    (hs : ∀ x ∈ l, x ∈ l') : l.length ≤ l'.length := by
  rw [← List.toFinset_card_of_nodup h, ← List.toFinset_card_of_nodup h']
  exact Finset.card_le_card (fun x hx =>
    List.mem_toFinset.mpr (hs x (List.mem_toFinset.mp hx)))

theorem append_singleton_split {α : Type} {l pre post : List α} {a x : α}
    (h : l ++ [a] = pre ++ x :: post) :
    (pre = l ∧ x = a ∧ post = []) ∨
      (∃ post', post = post' ++ [a] ∧ l = pre ++ x :: post') := by
  rcases List.eq_nil_or_concat post with rfl | ⟨L, b, rfl⟩
  · left
    have h' : l ++ [a] = pre ++ [x] := h
    have := List.append_inj' h' rfl
    exact ⟨this.1.symm, by simpa using this.2.symm, rfl⟩
  · right
    rw [List.concat_eq_append] at h
    have h' : l ++ [a] = (pre ++ x :: L) ++ [b] := by
      rw [h]
      simp
    have := List.append_inj' h' rfl
    have hab : a = b := by simpa using this.2
    exact ⟨L, by rw [List.concat_eq_append, hab], this.1⟩

/-- Invariant of the `while queue:` loop, relating the queue `q`, the
in-degree table `D` and the already-emitted order `o`. -/
structure KInv (w : WorkflowDefinition) (q : List String) (D : String → Int)
    (o : List String) : Prop where
  nodup : (o ++ q).Nodup
  subset : ∀ x, x ∈ o ++ q → x ∈ w.keysOf
  indeg : ∀ x, D x = (((w.depsOf x).filter (fun d => !(o.contains d))).length : Int)
  ready : ∀ x, x ∈ q → D x = 0
  complete : ∀ x, x ∈ w.keysOf → x ∉ o ++ q → D x ≠ 0
  ordprop : ∀ pre x post, o = pre ++ x :: post → ∀ d ∈ w.depsOf x, d ∈ pre

theorem KInv.deps_done {w : WorkflowDefinition} {q D o}
    (inv : KInv w q D o) {x : String} (hx : x ∈ o) :
    ∀ d ∈ w.depsOf x, d ∈ o := by
  rcases List.append_of_mem hx with ⟨pre, post, rfl⟩
  intro d hd
  have := inv.ordprop pre x post rfl d hd
  exact List.mem_append.mpr (Or.inl this)

theorem KInv.done_zero {w : WorkflowDefinition} {q D o}
    (inv : KInv w q D o) {x : String} (hx : x ∈ o) : D x = 0 := by
  rw [inv.indeg x]
  have : (w.depsOf x).filter (fun d => !(o.contains d)) = [] := by
    rw [List.filter_eq_nil_iff]
    intro d hd
    have := inv.deps_done hx d hd
    simp [List.contains, this]
  rw [this]
  rfl

end WorkflowDefinition

namespace WorkflowDefinition

/-- One iteration of the `while queue:` loop preserves the invariant:
popping `current = c`, decrementing its dependents and appending the
newly ready ones, then emitting `c`. -/
theorem kinv_step {w : WorkflowDefinition} (hnd : w.keysOf.Nodup)
    {c : String} {rest : List String} {D : String → Int} {o : List String}
    (inv : KInv w (c :: rest) D o) :
    KInv w (processNeighbors (w.sortedDependents c) rest D).1
      (processNeighbors (w.sortedDependents c) rest D).2 (o ++ [c]) := by
  have hco : c ∉ o := by
    rcases List.nodup_append.mp inv.nodup with ⟨_, _, hdisj⟩
    intro hmem
    exact hdisj hmem (List.mem_cons_self _ _)
  have hcountN : ∀ x, (w.sortedDependents c).count x = (w.depsOf x).count c :=
    fun x => count_sortedDependents hnd c x
  have H : ∀ x, (((w.sortedDependents c).count x : Nat) : Int) ≤ D x := by
    intro x
    rw [inv.indeg x, hcountN x]
    exact_mod_cast count_le_filter_length hco
  rcases processNeighbors_spec (w.sortedDependents c) rest D H with
    ⟨newly, heq, hnodup_new, hmem_new⟩
  rw [heq]
  dsimp only
  have hDnew : ∀ x, D x - (((w.sortedDependents c).count x : Nat) : Int)
      = (((w.depsOf x).filter (fun d => !((o ++ [c]).contains d))).length : Int) := by
    intro x
    rw [inv.indeg x, hcountN x]
    have := filter_contains_append_singleton (w.depsOf x) o c hco
    omega
  have hnew_pos : ∀ x ∈ newly, (0 : Int) < ((w.sortedDependents c).count x : Int) := by
    intro x hx
    have hxns := ((hmem_new x).mp hx).1
    exact_mod_cast List.count_pos_iff.mpr hxns
  have hnew_keys : ∀ x ∈ newly, x ∈ w.keysOf := by
    intro x hx
    have hxns := ((hmem_new x).mp hx).1
    rcases mem_sortedDependents.mp hxns with ⟨s, hs, _⟩
    exact mem_keysOf.mpr ⟨s, hs⟩
  have hdisj_new : ∀ x ∈ newly, x ∉ o ++ c :: rest := by
    intro x hx hmem
    have hDx : D x = (((w.sortedDependents c).count x : Nat) : Int) :=
      ((hmem_new x).mp hx).2
    have hpos := hnew_pos x hx
    rcases List.mem_append.mp hmem with hxo | hxq
    · have := inv.done_zero hxo
      omega
    · have := inv.ready x hxq
      omega
  have heqlist : (o ++ [c]) ++ (rest ++ newly) = (o ++ c :: rest) ++ newly := by
    simp [List.append_assoc]
  refine ⟨?_, ?_, ?_, ?_, ?_, ?_⟩
  · -- nodup
    show ((o ++ [c]) ++ (rest ++ newly)).Nodup
    rw [heqlist]
    exact List.Nodup.append inv.nodup hnodup_new
      (fun a ha ha' => (hdisj_new a ha') ha)
  · -- subset
    intro x hx
    rw [heqlist] at hx
    rcases List.mem_append.mp hx with hx | hx
    · exact inv.subset x hx
    · exact hnew_keys x hx
  · -- indeg
    exact hDnew
  · -- ready
    intro x hx
    rcases List.mem_append.mp hx with hx | hx
    · have hr := inv.ready x (List.mem_cons_of_mem c hx)
      have := H x
      have hn : (0 : Int) ≤ (((w.sortedDependents c).count x : Nat) : Int) := by
        exact_mod_cast Nat.zero_le _
      omega
    · have := ((hmem_new x).mp hx).2
      omega
  · -- complete
    intro x hk hnotin hD0
    rw [heqlist] at hnotin
    have hnot_old : x ∉ o ++ c :: rest := fun hm =>
      hnotin (List.mem_append.mpr (Or.inl hm))
    have hnot_new : x ∉ newly := fun hm =>
      hnotin (List.mem_append.mpr (Or.inr hm))
    by_cases hcnt : (w.sortedDependents c).count x = 0
    · have hDx : D x = 0 := by
        rw [hcnt] at hD0
        simpa using hD0
      exact inv.complete x hk hnot_old hDx
    · have hxns : x ∈ w.sortedDependents c :=
        List.count_pos_iff.mp (Nat.pos_of_ne_zero hcnt)
      have hDx : D x = (((w.sortedDependents c).count x : Nat) : Int) := by omega
      exact hnot_new ((hmem_new x).mpr ⟨hxns, hDx⟩)
  · -- ordprop
    intro pre x post hsplit d hd
    rcases append_singleton_split hsplit with ⟨hpre, hx, _⟩ | ⟨post', _, hosplit⟩
    · rw [hpre]
      rw [hx] at hd
      have hDc : D c = 0 := inv.ready c (List.mem_cons_self _ _)
      rw [inv.indeg c] at hDc
      have hflt : (w.depsOf c).filter (fun d => !(o.contains d)) = [] := by
        have : ((w.depsOf c).filter (fun d => !(o.contains d))).length = 0 := by
          have h0 := hDc.symm
          exact_mod_cast h0.symm
        exact List.length_eq_zero.mp this
      have := List.filter_eq_nil_iff.mp hflt d hd
      simpa [List.contains] using this
    · exact inv.ordprop pre x post' hosplit d hd

end WorkflowDefinition

namespace WorkflowDefinition

/-- Properties the loop's final order list has when the queue drains:
no duplicates, only declared keys, dependencies precede dependents, and
each omitted key has an omitted dependency. -/
def KPost (w : WorkflowDefinition) (r : List String) : Prop :=
  r.Nodup ∧ (∀ x ∈ r, x ∈ w.keysOf) ∧
    (∀ pre x post, r = pre ++ x :: post → ∀ d ∈ w.depsOf x, d ∈ pre) ∧
    (∀ x ∈ w.keysOf, x ∉ r → ∃ d, d ∈ w.depsOf x ∧ d ∉ r)

theorem kahnLoop_spec {w : WorkflowDefinition} (hnd : w.keysOf.Nodup) :
    ∀ (fuel : Nat) (q : List String) (D : String → Int) (o : List String),
      KInv w q D o → w.keysOf.length + 1 ≤ fuel + o.length →
      KPost w (kahnLoop w.sortedDependents fuel q D o) := by
  intro fuel
  induction fuel with
  | zero =>
    intro q D o inv hfuel
    exfalso
    have h1 : o.Nodup := inv.nodup.of_append_left
    have h2 : ∀ x ∈ o, x ∈ w.keysOf := fun x hx =>
      inv.subset x (List.mem_append.mpr (Or.inl hx))
    have := nodup_length_le h1 hnd h2
    omega
  | succ fuel ih =>
    intro q D o inv hfuel
    match q with
    | [] =>
      show KPost w o
      have hno : (o ++ ([] : List String)) = o := List.append_nil o
      refine ⟨?_, ?_, ?_, ?_⟩
      · have := inv.nodup
        rwa [hno] at this
      · intro x hx
        exact inv.subset x (by rw [hno]; exact hx)
      · exact fun pre x post hsplit => inv.ordprop pre x post hsplit
      · intro x hk hxo
        have hD := inv.complete x hk (by rw [hno]; exact hxo)
        rw [inv.indeg x] at hD
        have hlen : ((w.depsOf x).filter (fun d => !(o.contains d))).length ≠ 0 := by
          intro h0
          apply hD
          exact_mod_cast h0
        have hne : (w.depsOf x).filter (fun d => !(o.contains d)) ≠ [] := by
          intro h0
          rw [h0] at hlen
          exact hlen rfl
        rcases List.exists_mem_of_ne_nil _ hne with ⟨d, hd⟩
        have hdmem := List.mem_filter.mp hd
        refine ⟨d, hdmem.1, ?_⟩
        simpa [List.contains] using hdmem.2
    | c :: rest =>
      have hstep : kahnLoop w.sortedDependents (fuel + 1) (c :: rest) D o
          = kahnLoop w.sortedDependents fuel
              (processNeighbors (w.sortedDependents c) rest D).1
              (processNeighbors (w.sortedDependents c) rest D).2 (o ++ [c]) := rfl
      rw [hstep]
      apply ih _ _ _ (kinv_step hnd inv)
      have hsub : (o ++ [c]).Sublist (o ++ c :: rest) :=
        List.Sublist.append_left (List.singleton_sublist.mpr (List.mem_cons_self c rest)) o
      have h1 : (o ++ [c]).Nodup := hsub.nodup inv.nodup
      have h2 : ∀ x ∈ o ++ [c], x ∈ w.keysOf := fun x hx =>
        inv.subset x (hsub.mem hx)
      have hlen := nodup_length_le h1 hnd h2
      rw [List.length_append] at hlen ⊢
      simp only [List.length_singleton] at hlen ⊢
      omega

end WorkflowDefinition

namespace WorkflowDefinition

/-- The invariant holds at loop entry: sorted seed of in-degree-0 keys,
raw in-degrees, empty order. -/
theorem kinv_init {w : WorkflowDefinition} (hnd : w.keysOf.Nodup) :
    KInv w w.seedQueue w.indeg0 [] := by
  have hfilter_nil : ∀ l : List String,
      l.filter (fun d => !(([] : List String).contains d)) = l := by
    intro l
    rw [List.filter_eq_self]
    intro a _
    rfl
  refine ⟨?_, ?_, ?_, ?_, ?_, ?_⟩
  · show (([] : List String) ++ w.seedQueue).Nodup
    rw [List.nil_append]
    exact ((sortStrings_perm _).nodup_iff).mpr (hnd.filter _)
  · intro x hx
    rw [List.nil_append] at hx
    have hxf := (sortStrings_perm _).mem_iff.mp hx
    exact (List.mem_filter.mp hxf).1
  · intro x
    show w.indeg0 x = _
    unfold indeg0
    rw [hfilter_nil]
  · intro x hx
    have hxf := (sortStrings_perm _).mem_iff.mp hx
    have := (List.mem_filter.mp hxf).2
    simpa using this
  · intro x hk hnotin
    rw [List.nil_append] at hnotin
    intro hD0
    apply hnotin
    apply (sortStrings_perm _).mem_iff.mpr
    exact List.mem_filter.mpr ⟨hk, by simpa using hD0⟩
  · intro pre x post h
    exfalso
    cases pre <;> simp at h

/-- The loop's output for the fuel supplied by `ordered_stage_keys`. -/
theorem kahn_order_post {w : WorkflowDefinition} (hnd : w.keysOf.Nodup) :
    KPost w (kahnLoop w.sortedDependents (w.stages.length + 1)
      w.seedQueue w.indeg0 []) := by
  apply kahnLoop_spec hnd _ _ _ _ (kinv_init hnd)
  have : w.keysOf.length = w.stages.length := by simp [keysOf]
  omega

/-- A dependency of an emitted stage is emitted strictly earlier. -/
theorem dep_before {w : WorkflowDefinition} {r : List String}
    (hnodup : r.Nodup)
    (hord : ∀ pre x post, r = pre ++ x :: post → ∀ d ∈ w.depsOf x, d ∈ pre)
    {x d : String} (hx : x ∈ r) (hd : d ∈ w.depsOf x) :
    d ∈ r ∧ r.indexOf d < r.indexOf x := by
  rcases List.append_of_mem hx with ⟨pre, post, rfl⟩
  have hdpre : d ∈ pre := hord pre x post rfl d hd
  have hxpre : x ∉ pre := by
    intro hm
    rcases List.nodup_append.mp hnodup with ⟨_, _, hdisj⟩
    exact hdisj hm (List.mem_cons_self _ _)
  constructor
  · exact List.mem_append.mpr (Or.inl hdpre)
  · rw [List.indexOf_append_of_mem hdpre, List.indexOf_append_of_not_mem hxpre,
      List.indexOf_cons_self]
    have := List.indexOf_lt_length.mpr hdpre
    omega

/-- Transitive dependencies are also emitted strictly earlier. -/
theorem transGen_before {w : WorkflowDefinition} (hnd : w.keysOf.Nodup)
    {r : List String} (hnodup : r.Nodup)
    (hord : ∀ pre x post, r = pre ++ x :: post → ∀ d ∈ w.depsOf x, d ∈ pre)
    {a b : String} (h : Relation.TransGen w.dependsDirect a b) :
    b ∈ r → a ∈ r ∧ r.indexOf a < r.indexOf b := by
  induction h with
  | single h' =>
    intro hb
    rcases h' with ⟨s, hs, ha⟩
    have hdeps : w.depsOf _ = s.depends_on := depsOf_eq hnd hs
    exact dep_before hnodup hord hb (hdeps ▸ ha)
  | tail hab hbc ih =>
    intro hc
    rcases hbc with ⟨s, hs, hbmem⟩
    have hdeps : w.depsOf _ = s.depends_on := depsOf_eq hnd hs
    have hstep := dep_before hnodup hord hc (hdeps ▸ hbmem)
    have hrec := ih hstep.1
    exact ⟨hrec.1, Nat.lt_trans hrec.2 hstep.2⟩

/-- A key lying on a dependency cycle is a declared stage key. -/
theorem cycle_mem_keys {w : WorkflowDefinition} {k : String}
    (h : Relation.TransGen w.dependsDirect k k) : k ∈ w.keysOf := by
  cases h with
  | single h' =>
    rcases h' with ⟨s, hs, _⟩
    exact mem_keysOf.mpr ⟨s, hs⟩
  | tail _ h' =>
    rcases h' with ⟨s, hs, _⟩
    exact mem_keysOf.mpr ⟨s, hs⟩

end WorkflowDefinition

namespace WorkflowDefinition

/-- With valid dependencies and a cycle, the length check fails and the
scheduler raises the cycle `ValueError`. -/
theorem ordered_stage_keys_cycle {w : WorkflowDefinition} (hnd : w.keysOf.Nodup)
    (hdecl : ∀ p ∈ w.stages, ∀ d ∈ p.2.depends_on, d ∈ w.keysOf)
    (hcyc : w.HasCycle) : w.ordered_stage_keys = .error cycleMsg := by
  rcases hcyc with ⟨k, hk⟩
  obtain ⟨hrnodup, hrsub, hrord, _⟩ := kahn_order_post (w := w) hnd
  set r := kahnLoop w.sortedDependents (w.stages.length + 1)
      w.seedQueue w.indeg0 [] with hr
  have hknotin : k ∉ r := by
    intro hmem
    have := transGen_before hnd hrnodup hrord hk hmem
    omega
  have hkk : k ∈ w.keysOf := cycle_mem_keys hk
  have hkeyslen : w.keysOf.length = w.stages.length := by simp [keysOf]
  have hlt : r.length ≠ w.stages.length := by
    intro hExact
    have hsubF : r.toFinset ⊆ w.keysOf.toFinset := by
      intro x hx
      exact List.mem_toFinset.mpr (hrsub x (List.mem_toFinset.mp hx))
    have hcards : w.keysOf.toFinset.card ≤ r.toFinset.card := by
      rw [List.toFinset_card_of_nodup hrnodup, List.toFinset_card_of_nodup hnd]
      omega
    have hFeq : r.toFinset = w.keysOf.toFinset :=
      Finset.eq_of_subset_of_card_le hsubF hcards
    apply hknotin
    have : k ∈ r.toFinset := hFeq ▸ List.mem_toFinset.mpr hkk
    exact List.mem_toFinset.mp this
  unfold ordered_stage_keys
  rw [firstUnknownDep_eq_none_iff.mpr hdecl]
  dsimp only
  rw [← hr, if_neg hlt]

/-- With valid dependencies and no cycle, the scheduler returns a
dependency-respecting permutation of the keys. -/
theorem ordered_stage_keys_acyclic {w : WorkflowDefinition} (hnd : w.keysOf.Nodup)
    (hdecl : ∀ p ∈ w.stages, ∀ d ∈ p.2.depends_on, d ∈ w.keysOf)
    (hacyc : ¬ w.HasCycle) :
    ∃ r, w.ordered_stage_keys = .ok r ∧ List.Perm r w.keysOf ∧ r.Nodup ∧
      (∀ pre x post, r = pre ++ x :: post → ∀ d ∈ w.depsOf x, d ∈ pre) := by
  obtain ⟨hrnodup, hrsub, hrord, hrcomp⟩ := kahn_order_post (w := w) hnd
  set r := kahnLoop w.sortedDependents (w.stages.length + 1)
      w.seedQueue w.indeg0 [] with hr
  have hkeysub : ∀ x ∈ w.keysOf, x ∈ r := by
    by_contra hno
    push_neg at hno
    obtain ⟨x₀, hx₀k, hx₀r⟩ := hno
    classical
    set L := w.keysOf.filter (fun x => !(r.contains x)) with hL
    have hmemL : ∀ x, x ∈ L ↔ (x ∈ w.keysOf ∧ x ∉ r) := by
      intro x
      rw [hL, List.mem_filter]
      simp [List.contains]
    have hLne : x₀ ∈ L := (hmemL x₀).mpr ⟨hx₀k, hx₀r⟩
    have hLstep : ∀ x, x ∈ L → ∃ d, d ∈ w.depsOf x ∧ d ∈ L := by
      intro x hx
      rcases (hmemL x).mp hx with ⟨hxk, hxr⟩
      rcases hrcomp x hxk hxr with ⟨d, hd, hdr⟩
      have hdk : d ∈ w.keysOf := by
        rcases mem_keysOf.mp hxk with ⟨s, hs⟩
        have hds : w.depsOf x = s.depends_on := depsOf_eq hnd hs
        exact hdecl (x, s) hs d (hds ▸ hd)
      exact ⟨d, hd, (hmemL d).mpr ⟨hdk, hdr⟩⟩
    have hfex : ∃ f : String → String,
        ∀ x, x ∈ L → f x ∈ w.depsOf x ∧ f x ∈ L := by
      refine ⟨fun x => if h : x ∈ L then (hLstep x h).choose else x, ?_⟩
      intro x h
      simp only [dif_pos h]
      exact (hLstep x h).choose_spec
    obtain ⟨f, hf⟩ := hfex
    let seq : Nat → String := fun n => Nat.rec x₀ (fun _ prev => f prev) n
    have hseq_succ : ∀ n, seq (n + 1) = f (seq n) := fun _ => rfl
    have hseqL : ∀ n, seq n ∈ L := by
      intro n
      induction n with
      | zero => exact hLne
      | succ n ih =>
        rw [hseq_succ]
        exact (hf (seq n) ih).2
    have hseqdep : ∀ n, w.dependsDirect (seq (n + 1)) (seq n) := by
      intro n
      have ih := hseqL n
      have hxk := ((hmemL (seq n)).mp ih).1
      rcases mem_keysOf.mp hxk with ⟨s, hs⟩
      have hdeps : w.depsOf (seq n) = s.depends_on := depsOf_eq hnd hs
      refine ⟨s, hs, ?_⟩
      rw [hseq_succ, ← hdeps]
      exact (hf (seq n) ih).1
    have hLlen : ∀ n, L.indexOf (seq n) < L.length := fun n =>
      List.indexOf_lt_length.mpr (hseqL n)
    obtain ⟨m, n, hmn, hg⟩ := Finite.exists_ne_map_eq_of_infinite
      (fun n => (⟨L.indexOf (seq n), hLlen n⟩ : Fin L.length))
    have heqseq : seq m = seq n := by
      have hidx : L.indexOf (seq m) = L.indexOf (seq n) := congrArg Fin.val hg
      exact (List.indexOf_inj (hseqL m) (hseqL n)).mp hidx
    have hchain : ∀ i j, i < j → Relation.TransGen w.dependsDirect (seq j) (seq i) := by
      intro i j hij
      induction j with
      | zero => omega
      | succ j ihj =>
        rcases Nat.lt_or_ge i j with hlt | hge
        · exact Relation.TransGen.head (hseqdep j) (ihj hlt)
        · have : i = j := by omega
          subst this
          exact Relation.TransGen.single (hseqdep i)
    apply hacyc
    rcases Nat.lt_or_ge m n with hlt | hge
    · have hc := hchain m n hlt
      rw [← heqseq] at hc
      exact ⟨seq m, hc⟩
    · have hlt' : n < m := by omega
      have hc := hchain n m hlt'
      rw [heqseq] at hc
      exact ⟨seq n, hc⟩
  have hperm : List.Perm r w.keysOf := by
    apply List.perm_of_nodup_nodup_toFinset_eq hrnodup hnd
    apply Finset.Subset.antisymm
    · intro x hx
      exact List.mem_toFinset.mpr (hrsub x (List.mem_toFinset.mp hx))
    · intro x hx
      exact List.mem_toFinset.mpr (hkeysub x (List.mem_toFinset.mp hx))
  have hlen : r.length = w.stages.length := by
    have := hperm.length_eq
    simpa [keysOf] using this
  refine ⟨r, ?_, hperm, hrnodup, hrord⟩
  unfold ordered_stage_keys
  rw [firstUnknownDep_eq_none_iff.mpr hdecl]
  dsimp only
  rw [← hr, if_pos hlen]

end WorkflowDefinition

namespace WorkflowDefinition

/-- The loop only ever appends to the partial order. -/
theorem kahnLoop_extends (dep : String → List String) :
    ∀ (fuel : Nat) (q : List String) (D : String → Int) (o : List String),
      ∃ t, kahnLoop dep fuel q D o = o ++ t
  | 0, _, _, o => ⟨[], (List.append_nil o).symm⟩
  | _ + 1, [], _, o => ⟨[], (List.append_nil o).symm⟩
  | fuel + 1, c :: rest, D, o => by
    obtain ⟨t, ht⟩ := kahnLoop_extends dep fuel
      (processNeighbors (dep c) rest D).1
      (processNeighbors (dep c) rest D).2 (o ++ [c])
    refine ⟨c :: t, ?_⟩
    show kahnLoop dep fuel _ _ (o ++ [c]) = o ++ c :: t
    rw [ht]
    simp

/-- On success the first emitted key is the head of the sorted seed. -/
theorem ordered_stage_keys_head {w : WorkflowDefinition} {l : List String}
    (h : w.ordered_stage_keys = .ok l) : l.head? = w.seedQueue.head? := by
  unfold ordered_stage_keys at h
  cases hf : w.firstUnknownDep with
  | some kd =>
    rw [hf] at h
    cases h
  | none =>
    rw [hf] at h
    dsimp only at h
    by_cases hc : (kahnLoop w.sortedDependents (w.stages.length + 1)
        w.seedQueue w.indeg0 []).length = w.stages.length
    · rw [if_pos hc] at h
      have hl : l = kahnLoop w.sortedDependents (w.stages.length + 1)
          w.seedQueue w.indeg0 [] := by
        injection h with h'
        exact h'.symm
      subst hl
      cases hq : w.seedQueue with
      | nil => rfl
      | cons c rest =>
        obtain ⟨t, ht⟩ := kahnLoop_extends w.sortedDependents w.stages.length
          (processNeighbors (w.sortedDependents c) rest w.indeg0).1
          (processNeighbors (w.sortedDependents c) rest w.indeg0).2 [c]
        have hstep : kahnLoop w.sortedDependents (w.stages.length + 1)
            (c :: rest) w.indeg0 []
            = kahnLoop w.sortedDependents w.stages.length
              (processNeighbors (w.sortedDependents c) rest w.indeg0).1
              (processNeighbors (w.sortedDependents c) rest w.indeg0).2 [c] := rfl
        rw [hstep, ht]
        rfl
    · rw [if_neg hc] at h
      cases h

end WorkflowDefinition

namespace WorkflowDefinition

theorem mem_seedQueue {w : WorkflowDefinition} {x : String} :
    x ∈ w.seedQueue ↔ x ∈ w.keysOf ∧ w.indeg0 x = 0 := by
  unfold seedQueue
  rw [(sortStrings_perm _).mem_iff, List.mem_filter]
  constructor
  · rintro ⟨h₁, h₂⟩
    exact ⟨h₁, by simpa using h₂⟩
  · rintro ⟨h₁, h₂⟩
    exact ⟨h₁, by simpa using h₂⟩

theorem not_hasCycle_of_ok {w : WorkflowDefinition} (hnd : w.keysOf.Nodup)
    (hdecl : ∀ p ∈ w.stages, ∀ d ∈ p.2.depends_on, d ∈ w.keysOf)
    {l : List String} (h : w.ordered_stage_keys = .ok l) : ¬ w.HasCycle := by
  intro hcyc
  rw [ordered_stage_keys_cycle hnd hdecl hcyc] at h
  cases h

/-! Determinism: every intermediate structure of `ordered_stages` depends
only on the *set* of `(key, stage)` entries, not the dict insertion order. -/

theorem lookupStage_eq_of_perm {w₁ w₂ : WorkflowDefinition}
    (hperm : List.Perm w₁.stages w₂.stages) (hnd : w₁.keysOf.Nodup)
    (k : String) : w₁.lookupStage k = w₂.lookupStage k := by
  have hnd₂ : w₂.keysOf.Nodup :=
    ((hperm.map Prod.fst).nodup_iff).mp hnd
  cases h₁ : w₁.lookupStage k with
  | some s =>
    have hm : (k, s) ∈ w₁.stages := mem_of_lookupStage_some h₁
    have hm₂ : (k, s) ∈ w₂.stages := hperm.mem_iff.mp hm
    rw [lookupStage_some_of_mem hnd₂ hm₂]
  | none =>
    cases h₂ : w₂.lookupStage k with
    | none => rfl
    | some s =>
      have hm₂ := mem_of_lookupStage_some h₂
      have hm₁ : (k, s) ∈ w₁.stages := hperm.mem_iff.mpr hm₂
      rw [lookupStage_some_of_mem hnd hm₁] at h₁
      cases h₁

theorem indeg0_eq_of_perm {w₁ w₂ : WorkflowDefinition}
    (hperm : List.Perm w₁.stages w₂.stages) (hnd : w₁.keysOf.Nodup) :
    w₁.indeg0 = w₂.indeg0 := by
  funext k
  unfold indeg0 depsOf
  rw [lookupStage_eq_of_perm hperm hnd]

theorem sortedDependents_eq_of_perm {w₁ w₂ : WorkflowDefinition}
    (hperm : List.Perm w₁.stages w₂.stages) :
    w₁.sortedDependents = w₂.sortedDependents := by
  funext d
  unfold sortedDependents adjacencyList
  exact sortStrings_congr_perm (hperm.flatMap_right _)

theorem seedQueue_eq_of_perm {w₁ w₂ : WorkflowDefinition}
    (hperm : List.Perm w₁.stages w₂.stages) (hnd : w₁.keysOf.Nodup) :
    w₁.seedQueue = w₂.seedQueue := by
  unfold seedQueue
  rw [indeg0_eq_of_perm hperm hnd]
  exact sortStrings_congr_perm ((hperm.map Prod.fst).filter _)

theorem ordered_stage_keys_eq_of_perm {w₁ w₂ : WorkflowDefinition}
    (hperm : List.Perm w₁.stages w₂.stages) (hnd : w₁.keysOf.Nodup)
    (hdecl : ∀ p ∈ w₁.stages, ∀ d ∈ p.2.depends_on, d ∈ w₁.keysOf) :
    w₁.ordered_stage_keys = w₂.ordered_stage_keys := by
  have hdecl₂ : ∀ p ∈ w₂.stages, ∀ d ∈ p.2.depends_on, d ∈ w₂.keysOf := by
    intro p hp d hd
    exact ((hperm.map Prod.fst).mem_iff).mp (hdecl p (hperm.mem_iff.mpr hp) d hd)
  unfold ordered_stage_keys
  rw [firstUnknownDep_eq_none_iff.mpr hdecl, firstUnknownDep_eq_none_iff.mpr hdecl₂]
  dsimp only
  rw [sortedDependents_eq_of_perm hperm, seedQueue_eq_of_perm hperm hnd,
    indeg0_eq_of_perm hperm hnd, hperm.length_eq]

theorem ordered_stages_eq_of_perm {w₁ w₂ : WorkflowDefinition}
    (hperm : List.Perm w₁.stages w₂.stages) (hnd : w₁.keysOf.Nodup)
    (hdecl : ∀ p ∈ w₁.stages, ∀ d ∈ p.2.depends_on, d ∈ w₁.keysOf) :
    w₁.ordered_stages = w₂.ordered_stages := by
  unfold ordered_stages
  rw [ordered_stage_keys_eq_of_perm hperm hnd hdecl]
  have hfun : (fun l : List String =>
        l.map (fun k => (w₁.lookupStage k).getD default))
      = (fun l : List String =>
        l.map (fun k => (w₂.lookupStage k).getD default)) := by
    funext l
    apply List.map_congr_left
    intro k _
    rw [lookupStage_eq_of_perm hperm hnd]
  rw [hfun]

end WorkflowDefinition

open WorkflowDefinition

/-- Convenience constructor for concrete test stages. -/
def mkStage (k agent : String) (deps : List String) : StageDefinition :=
  ⟨k, k, agent, deps, [], false, "", false⟩

/-- Concrete acyclic graph: `a` depends on `b`; `b`, `c` independent. -/
def wABC : WorkflowDefinition :=
  ⟨[("a", mkStage "a" "" ["b"]), ("b", mkStage "b" "" []),
    ("c", mkStage "c" "" [])]⟩

/-- Concrete two-cycle: `a` depends on `b` and `b` depends on `a`. -/
def wCyc : WorkflowDefinition :=
  ⟨[("a", mkStage "a" "" ["b"]), ("b", mkStage "b" "" ["a"])]⟩

/-- Concrete two-stage chain used as a generic witness graph. -/
def wChain : WorkflowDefinition :=
  ⟨[("s1", mkStage "s1" "agent-one" []), ("s2", mkStage "s2" "agent-two" ["s1"])]⟩

/-- `wChain` with its stages declared in the opposite textual order. -/
def wChainRev : WorkflowDefinition :=
  ⟨[("s2", mkStage "s2" "agent-two" ["s1"]), ("s1", mkStage "s1" "agent-one" [])]⟩

namespace WorkflowDefinition

/-- The spec's claimed frontier policy, stated as a property of an output
key sequence: a key is *ready* after a prefix when it is declared, not yet
emitted, and all its dependencies are emitted. -/
def readyAt (w : WorkflowDefinition) (done : List String) (k : String) : Bool :=
  w.keysOf.contains k && !(done.contains k) &&
    (w.depsOf k).all (fun d => done.contains d)

/-- The spec's claim: at every step the emitted key is lexicographically
smallest among the ready keys. -/
def lexMinProp (w : WorkflowDefinition) (l : List String) : Prop :=
  ∀ i : Fin l.length, ∀ k ∈ w.keysOf,
    readyAt w (l.take i.val) k = true → strLe (l.get i) k = true

instance (w : WorkflowDefinition) (l : List String) : Decidable (w.lexMinProp l) := by
  unfold lexMinProp
  infer_instance

end WorkflowDefinition

/-- C1 counterexample: `wABC` is acyclic, the scheduler emits
`["b", "c", "a"]`, and at step 2 it emits `"c"` although `"a"` is ready
and lexicographically smaller — newly ready keys are appended to the end
of the queue, not inserted at their sorted position. -/
theorem C1_counterexample :
    wABC.ordered_stage_keys = .ok ["b", "c", "a"] ∧
    ¬ wABC.HasCycle ∧
    ¬ WorkflowDefinition.lexMinProp wABC ["b", "c", "a"] := by
  refine ⟨rfl, ?_, ?_⟩
  · exact not_hasCycle_of_ok (by decide) (by decide) rfl
  · decide

/-- C1 (amended): the frontier is a FIFO queue; only the *first* emitted
stage is guaranteed to be the lexicographically smallest in-degree-0 key. -/
theorem C1_first_emitted_min {w : WorkflowDefinition} {l : List String}
    {k₀ : String} (h : w.ordered_stage_keys = .ok l)
    (hh : l.head? = some k₀) :
    k₀ ∈ w.keysOf ∧ w.indeg0 k₀ = 0 ∧
      ∀ k ∈ w.keysOf, w.indeg0 k = 0 → strLe k₀ k = true := by
  have hhead := ordered_stage_keys_head h
  rw [hh] at hhead
  cases hq : w.seedQueue with
  | nil =>
    rw [hq] at hhead
    cases hhead
  | cons c tail =>
    rw [hq] at hhead
    have hk₀ : k₀ = c := by
      injection hhead with h'
    subst hk₀
    have hcmem : k₀ ∈ w.seedQueue := by
      rw [hq]
      exact List.mem_cons_self _ _
    obtain ⟨hk₀k, hk₀0⟩ := mem_seedQueue.mp hcmem
    refine ⟨hk₀k, hk₀0, ?_⟩
    intro k hk hk0
    have hkseed : k ∈ w.seedQueue := mem_seedQueue.mpr ⟨hk, hk0⟩
    rw [hq] at hkseed
    rcases List.mem_cons.mp hkseed with rfl | hktail
    · exact strLe_refl _
    · have hsorted : w.seedQueue.Pairwise (fun x y => strLe x y = true) :=
        sortStrings_sorted _
      rw [hq] at hsorted
      exact (List.pairwise_cons.mp hsorted).1 k hktail

/-- C1 amended witness at `wABC`. -/
theorem C1_first_emitted_min_witness :
    "b" ∈ wABC.keysOf ∧ wABC.indeg0 "b" = 0 ∧
      ∀ k ∈ wABC.keysOf, wABC.indeg0 k = 0 → strLe "b" k = true :=
  C1_first_emitted_min (l := ["b", "c", "a"]) rfl rfl

/-- C2: for a dict-shaped stage mapping whose dependencies all resolve
and whose dependency relation is acyclic, `ordered_stages` succeeds with
a permutation of all stage keys in which every stage's dependencies
appear strictly before it. -/
theorem C2_topological_order {w : WorkflowDefinition}
    (hnd : w.keysOf.Nodup)
    (hkeys : ∀ p ∈ w.stages, p.2.key = p.1)
    (hdecl : ∀ p ∈ w.stages, ∀ d ∈ p.2.depends_on, d ∈ w.keysOf)
    (hacyc : ¬ w.HasCycle) :
    ∃ l, w.ordered_stages = .ok l ∧
      List.Perm (l.map StageDefinition.key) w.keysOf ∧
      ∀ pre s post, l = pre ++ s :: post →
        ∀ d ∈ s.depends_on, d ∈ pre.map StageDefinition.key := by
  obtain ⟨r, hok, hperm, hrnodup, hrord⟩ := ordered_stage_keys_acyclic hnd hdecl hacyc
  have hkey_of : ∀ k ∈ r, ((w.lookupStage k).getD default).key = k := by
    intro k hk
    rcases mem_keysOf.mp (hperm.mem_iff.mp hk) with ⟨s, hs⟩
    rw [lookupStage_some_of_mem hnd hs]
    exact hkeys (k, s) hs
  have hdeps_of : ∀ k ∈ r,
      w.depsOf k = ((w.lookupStage k).getD default).depends_on := by
    intro k hk
    rcases mem_keysOf.mp (hperm.mem_iff.mp hk) with ⟨s, hs⟩
    rw [depsOf_eq hnd hs, lookupStage_some_of_mem hnd hs]
    rfl
  refine ⟨r.map (fun k => (w.lookupStage k).getD default), ?_, ?_, ?_⟩
  · unfold ordered_stages
    rw [hok]
    rfl
  · have hmapeq : (r.map (fun k => (w.lookupStage k).getD default)).map
        StageDefinition.key = r := by
      rw [List.map_map]
      have hext : ∀ k ∈ r,
          (StageDefinition.key ∘ fun k => (w.lookupStage k).getD default) k
            = id k := fun k hk => hkey_of k hk
      rw [List.map_congr_left hext, List.map_id]
    rw [hmapeq]
    exact hperm
  · intro pre s post hsplit d hd
    rcases List.map_eq_append_iff.mp hsplit with ⟨preK, rest, hrsplit, hpreK, hrest⟩
    rcases List.map_eq_cons_iff.mp hrest with ⟨x, postK, hrest2, hFx, hpost⟩
    have hrfull : r = preK ++ x :: postK := by
      rw [hrsplit, hrest2]
    have hxr : x ∈ r := by
      rw [hrfull]
      exact List.mem_append.mpr (Or.inr (List.mem_cons_self _ _))
    have hds : d ∈ w.depsOf x := by
      rw [hdeps_of x hxr, hFx]
      exact hd
    have hdpre : d ∈ preK := hrord preK x postK hrfull d hds
    have hpremap : pre.map StageDefinition.key = preK := by
      rw [← hpreK, List.map_map]
      have hext : ∀ k ∈ preK,
          (StageDefinition.key ∘ fun k => (w.lookupStage k).getD default) k
            = id k := by
        intro k hk
        exact hkey_of k (by rw [hrfull]; exact List.mem_append.mpr (Or.inl hk))
      rw [List.map_congr_left hext, List.map_id]
    rw [hpremap]
    exact hdpre

/-- C2 witness at the acyclic graph `wChain`. -/
theorem C2_topological_order_witness :
    ∃ l, wChain.ordered_stages = .ok l ∧
      List.Perm (l.map StageDefinition.key) wChain.keysOf ∧
      ∀ pre s post, l = pre ++ s :: post →
        ∀ d ∈ s.depends_on, d ∈ pre.map StageDefinition.key :=
  C2_topological_order (by decide) (by decide) (by decide)
    (not_hasCycle_of_ok (by decide) (by decide)
      (show wChain.ordered_stage_keys = .ok ["s1", "s2"] from rfl))

/-- C3: with resolvable dependencies and a dependency cycle, the
scheduler raises the cycle `ValueError` and returns no order at all. -/
theorem C3_cycle_error {w : WorkflowDefinition} (hnd : w.keysOf.Nodup)
    (hdecl : ∀ p ∈ w.stages, ∀ d ∈ p.2.depends_on, d ∈ w.keysOf)
    (hcyc : w.HasCycle) :
    w.ordered_stages = .error WorkflowDefinition.cycleMsg := by
  unfold ordered_stages
  rw [ordered_stage_keys_cycle hnd hdecl hcyc]
  rfl

/-- C3 witness at the two-cycle `wCyc` (`a depends_on b`, `b depends_on a`). -/
theorem C3_cycle_error_witness :
    wCyc.ordered_stages = .error WorkflowDefinition.cycleMsg :=
  C3_cycle_error (by decide) (by decide)
    ⟨"a", Relation.TransGen.head
      (⟨mkStage "b" "" ["a"], by decide, by decide⟩ :
        wCyc.dependsDirect "a" "b")
      (Relation.TransGen.single
        (⟨mkStage "a" "" ["b"], by decide, by decide⟩ :
          wCyc.dependsDirect "b" "a"))⟩

/-- C6: declaring the same stage set in a different textual order (the
stage list is a permutation) yields the identical `ordered_stages` result,
provided the declarations are a dict (distinct keys) and dependencies
resolve. -/
theorem C6_determinism {w₁ w₂ : WorkflowDefinition}
    (hperm : List.Perm w₁.stages w₂.stages) (hnd : w₁.keysOf.Nodup)
    (hdecl : ∀ p ∈ w₁.stages, ∀ d ∈ p.2.depends_on, d ∈ w₁.keysOf) :
    w₁.ordered_stages = w₂.ordered_stages :=
  ordered_stages_eq_of_perm hperm hnd hdecl

/-- C6 witness: the chain graph declared in both textual orders. -/
theorem C6_determinism_witness :
    wChain.ordered_stages = wChainRev.ordered_stages :=
  C6_determinism (by decide) (by decide) (by decide)

/-! ### Constrained YAML parser (`simple_yaml.py`)

Python values produced by the parser are embedded as `Value`.  Floats are
carried as their accepted source text (`Value.float raw`): no claim
inspects a float's numeric value, only which branch of the scalar
coercion fires.  `int(raw)` / `float(raw)` acceptance is embedded for the
ASCII numeric grammar (optional sign, digit groups separated by single
underscores, decimal point, exponent, `inf`/`nan`), which is Python's
grammar restricted to the ASCII configuration texts this parser reads. -/

inductive Value where
  | null
  | bool (b : Bool)
  | int (n : Int)
  | float (raw : String)
  | str (s : String)
  | list (l : List Value)
  | map (m : List (String × Value))
deriving Repr, Inhabited

/-! Core `String` operations (`strip`, `lower`, `replace`,
`startswith`, `endswith`, `split`) are re-implemented structurally over
`List Char` with Python's semantics, so that every parser function
evaluates by `rfl`/`decide` in the kernel. -/

/-- Python `str.strip()` (strip leading/trailing whitespace). -/
def pyStrip (s : String) : String :=
  String.mk (((s.toList.dropWhile Char.isWhitespace).reverse.dropWhile
    Char.isWhitespace).reverse)

/-- Python `str.lower()` (ASCII case fold, as in these configs). -/
def pyLower (s : String) : String := String.mk (s.toList.map Char.toLower)

/-- Whether `cs` begins with `pat`. -/
def listBeginsWith : List Char → List Char → Bool
  | _, [] => true
  | [], _ :: _ => false
  | a :: as, b :: bs => a == b && listBeginsWith as bs

/-- Python `str.startswith`. -/
def pyBeginsWith (s pat : String) : Bool := listBeginsWith s.toList pat.toList

/-- Python `str.endswith`. -/
def pyEndsWith (s pat : String) : Bool :=
  listBeginsWith s.toList.reverse pat.toList.reverse

/-- Left-to-right non-overlapping replacement on char lists (fueled; the
fuel is the list length, and each step consumes at least one char). -/
def listReplace (pat rep : List Char) : Nat → List Char → List Char
  | 0, cs => cs
  | _ + 1, [] => []
  | fuel + 1, c :: rest =>
    if !pat.isEmpty && listBeginsWith (c :: rest) pat then
      rep ++ listReplace pat rep fuel ((c :: rest).drop pat.length)
    else c :: listReplace pat rep fuel rest

/-- Python `str.replace`. -/
def pyReplace (s pat rep : String) : String :=
  String.mk (listReplace pat.toList rep.toList s.toList.length s.toList)

/-- Split at the first `:`; `none` when the text has no colon
(Python `":" in stripped` followed by `stripped.split(":", 1)`). -/
def breakAtColon : List Char → Option (List Char × List Char)
  | [] => none
  | c :: rest =>
    if c = ':' then some ([], rest)
    else (breakAtColon rest).map (fun p => (c :: p.1, p.2))

/-- `_strip_quotes` from `simple_yaml.py` (both unescape replacements are
applied regardless of which quote delimited the text, as in the source). -/
def strip_quotes (value : String) : String :=
  if (pyBeginsWith value "'" && pyEndsWith value "'")
      || (pyBeginsWith value "\"" && pyEndsWith value "\"") then
    let inner := (value.drop 1).dropRight 1
    pyReplace (pyReplace inner "\\'" "'") "\\\"" "\""
  else value

/-- Digit-group body of a Python numeral: `digit+ ('_' digit+)*`. -/
def pyDigitsBody : List Char → Bool
  | [] => false
  | c :: rest => c.isDigit && pyDigitsRest rest
where pyDigitsRest : List Char → Bool
  | [] => true
  | '_' :: c :: rest => c.isDigit && pyDigitsRest rest
  | '_' :: [] => false
  | c :: rest => c.isDigit && pyDigitsRest rest

/-- Numeric value of an accepted digit body (underscores skipped). -/
def pyDigitsValue (cs : List Char) : Int :=
  cs.foldl (fun acc c => if c = '_' then acc
    else acc * 10 + ((c.toNat - 48 : Nat) : Int)) 0

/-- Python `int(raw)` on stripped text. -/
def pyInt (s : String) : Option Int :=
  match s.toList with
  | '+' :: rest => if pyDigitsBody rest then some (pyDigitsValue rest) else none
  | '-' :: rest => if pyDigitsBody rest then some (-(pyDigitsValue rest)) else none
  | cs => if pyDigitsBody cs then some (pyDigitsValue cs) else none

/-- Mantissa of a Python float: digits with at most one `.`, at least one
digit overall. -/
def pyMantissaOk (cs : List Char) : Bool :=
  let intPart := cs.takeWhile (fun c => c ≠ '.')
  let rest := cs.dropWhile (fun c => c ≠ '.')
  match rest with
  | [] => pyDigitsBody intPart
  | _ :: fracPart =>
    if fracPart.contains '.' then false
    else if intPart = [] then pyDigitsBody fracPart
    else if fracPart = [] then pyDigitsBody intPart
    else pyDigitsBody intPart && pyDigitsBody fracPart

/-- Python `float(raw)` acceptance on stripped text. -/
def pyFloatAccepts (s : String) : Bool :=
  let body := match s.toList with
    | '+' :: rest => rest
    | '-' :: rest => rest
    | cs => cs
  let lower := body.map Char.toLower
  if lower = "inf".toList || lower = "infinity".toList || lower = "nan".toList then
    true
  else
    let mant := body.takeWhile (fun c => c ≠ 'e' && c ≠ 'E')
    let rest := body.dropWhile (fun c => c ≠ 'e' && c ≠ 'E')
    match rest with
    | [] => pyMantissaOk mant
    | _ :: expPart =>
      let expBody := match expPart with
        | '+' :: r => r
        | '-' :: r => r
        | r => r
      pyMantissaOk mant && pyDigitsBody expBody

/-- State of the character scan in `_parse_inline_list`. -/
structure ScanState where
  items : List String
  buffer : List Char
  quote : Option Char
  escaped : Bool
deriving Repr, DecidableEq

/-- One character of the `for char in inner:` loop. -/
def scanStep (st : ScanState) (c : Char) : ScanState :=
  match st.quote with
  | some q =>
    let st' : ScanState := { st with buffer := st.buffer ++ [c] }
    if st'.escaped then { st' with escaped := false }
    else if c = '\\' then { st' with escaped := true }
    else if c = q then { st' with quote := none }
    else st'
  | none =>
    if c = '"' || c = '\'' then { st with quote := some c, buffer := st.buffer ++ [c] }
    else if c = ',' then
      { st with items := st.items ++ [pyStrip (String.mk st.buffer)], buffer := [] }
    else { st with buffer := st.buffer ++ [c] }

/-- The whole scan of the bracket body. -/
def scanInline (cs : List Char) : ScanState :=
  cs.foldl scanStep ⟨[], [], none, false⟩

/-- The body of `_parse_inline_list`, abstracted over the element parser
(so that the `_parse_scalar` / `_parse_inline_list` recursion can be tied
through a single structurally recursive function). -/
def inlineListCore (parseItem : String → Except String Value) (value : String)
    (line_no : Nat) : Except String (List Value) :=
  let inner := pyStrip ((value.drop 1).dropRight 1)
  if inner = "" then .ok []
  else
    let st := scanInline inner.toList
    if st.quote.isSome then
      .error ("Unterminated quoted string in list at line " ++ toString line_no)
    else
      let items := if st.buffer.isEmpty then st.items
        else st.items ++ [pyStrip (String.mk st.buffer)]
      let kept := items.filter (fun item => pyStrip item != "" || item == "")
      kept.mapM (fun item => parseItem (pyStrip item))

/-- `_parse_scalar`, with the mutual `_parse_inline_list` recursion tied
through a fuel parameter.  Each nesting level strips the two surrounding
brackets and recurses on strictly shorter item texts, so `length + 1`
units of fuel (supplied by the wrappers below) are never exhausted; the
fueled function therefore coincides with the Python pair, which always
terminates. -/
def parseScalarF : Nat → String → Nat → Except String Value
  | 0, _, _ => .error "internal: scalar recursion fuel exhausted"
  | fuel + 1, value, line_no =>
    let raw := pyStrip value
    if raw = "" || pyLower raw = "null" || pyLower raw = "none" || pyLower raw = "~" then
      .ok .null
    else if pyLower raw = "true" then .ok (.bool true)
    else if pyLower raw = "false" then .ok (.bool false)
    else if pyBeginsWith raw "[" && pyEndsWith raw "]" then
      (inlineListCore (fun item => parseScalarF fuel item line_no) raw line_no).map
        Value.list
    else
      let leadZero := pyBeginsWith raw "0" && decide (1 < raw.length) &&
        ((raw.toList.drop 1).headD ' ').isDigit
      match (if leadZero then none else pyInt raw) with
      | some n => .ok (.int n)
      | none =>
        if pyFloatAccepts raw then .ok (.float raw)
        else .ok (.str (strip_quotes raw))

/-- `_parse_scalar` from `simple_yaml.py`. -/
def parse_scalar (value : String) (line_no : Nat) : Except String Value :=
  parseScalarF (value.length + 1) value line_no

/-- `_parse_inline_list` from `simple_yaml.py`. -/
def parse_inline_list (value : String) (line_no : Nat) : Except String (List Value) :=
  inlineListCore (fun item => parseScalarF value.length item line_no) value line_no

/-- C7: commas inside an active quote never split elements — the inline
list `[a, "b,c", 1, true]` coerces to exactly
`[string "a", string "b,c", int 1, bool true]` — and any bracketed text
whose scan ends with an open quote fails with the `ParseError` naming the
line. -/
theorem C7_inline_list_tokenization :
    (parse_inline_list "[a, \"b,c\", 1, true]" 1
        = .ok [.str "a", .str "b,c", .int 1, .bool true]) ∧
    ∀ (value : String) (line_no : Nat),
      pyBeginsWith value "[" = true → pyEndsWith value "]" = true →
      (scanInline (pyStrip ((value.drop 1).dropRight 1)).toList).quote.isSome = true →
      parse_inline_list value line_no
        = .error ("Unterminated quoted string in list at line " ++ toString line_no) := by
  refine ⟨rfl, ?_⟩
  intro value line_no _ _ hq
  unfold parse_inline_list inlineListCore
  have hne : pyStrip ((value.drop 1).dropRight 1) ≠ "" := by
    intro h0
    rw [h0] at hq
    cases hq
  rw [if_neg hne, if_pos hq]

/-- C7 witness: the unterminated-quote branch at a concrete input. -/
theorem C7_inline_list_tokenization_witness :
    parse_inline_list "[\"a]" 7
      = .error ("Unterminated quoted string in list at line " ++ toString 7) :=
  C7_inline_list_tokenization.2 "[\"a]" 7 rfl rfl rfl

/-! ### Document-level parsing (`load_simple_yaml`)

Python's mutable container tree (dicts holding references that are also
reachable from the indentation stack) is embedded by storing the root
mapping and representing each stack frame's container by its key path
from the root; updates go through the root.  Because pushed frames carry
strictly increasing indents and paths extending the frame below, a path
on the stack is never severed by a later assignment, so the path view
coincides with Python's reference view. -/

/-- `len(raw_line) - len(raw_line.lstrip(" "))`: leading space count. -/
def countLeadingSpaces (s : String) : Nat :=
  (s.toList.takeWhile (fun c => c = ' ')).length

/-- Python dict lookup on the embedded mapping (the mappings built by
the parser never hold duplicate keys, exactly like a Python dict). -/
def dictFind : List (String × Value) → String → Option Value
  | [], _ => none
  | p :: t, k => if p.1 = k then some p.2 else dictFind t k

/-- Python dict assignment `m[k] = v`: overwrite at the key's original
position when present, else append. -/
def dictSet : List (String × Value) → String → Value → List (String × Value)
  | [], k, v => [(k, v)]
  | p :: t, k, v => if p.1 = k then (k, v) :: t else p :: dictSet t k v

/-- Fetch the container at a key path. -/
def getPath : Value → List String → Option Value
  | v, [] => some v
  | .map m, k :: p =>
    match dictFind m k with
    | some v => getPath v p
    | none => none
  | _, _ :: _ => none

/-- Assign `v` at a key path (the last component may be a fresh key). -/
def setPath : Value → List String → Value → Option Value
  | _, [], v => some v
  | .map m, k :: p, v =>
    match dictFind m k with
    | some child => (setPath child p v).map (fun c => .map (dictSet m k c))
    | none => if p.isEmpty then some (.map (dictSet m k v)) else none
  | _, _ :: _, _ => none

/-- Append a scalar to the list at a key path. -/
def appendAtPath : Value → List String → Value → Option Value
  | .list l, [], v => some (.list (l ++ [v]))
  | .map m, k :: p, v =>
    match dictFind m k with
    | some child => (appendAtPath child p v).map (fun c => .map (dictSet m k c))
    | none => none
  | _, _, _ => none

/-- `while stack and indent <= stack[-1][0] and len(stack) > 1:
stack.pop()` — the stack is stored top-first. -/
def popFrames (indent : Int) : List (Int × List String) → List (Int × List String)
  | [] => []
  | top :: rest =>
    if indent ≤ top.1 ∧ !rest.isEmpty then popFrames indent rest
    else top :: rest

/-- Parser state: the root mapping plus the indentation stack of
`(level, container path)` frames, top first. -/
structure PState where
  root : Value
  stack : List (Int × List String)
deriving Repr

/-- Processing of one line of `load_simple_yaml`'s `for` loop. -/
def lineStep (st : PState) (idx : Nat) (raw : String) : Except String PState :=
  let stripped := pyStrip raw
  if stripped = "" || pyBeginsWith stripped "#" then .ok st
  else
    let indent : Int := (countLeadingSpaces raw : Int)
    match popFrames indent st.stack with
    | [] => .error "internal: empty parser stack"
    | (curLevel, curPath) :: stackRest =>
      let stack := (curLevel, curPath) :: stackRest
      match getPath st.root curPath with
      | none => .error "internal: dangling container path"
      | some container =>
        if pyBeginsWith stripped "- " then
          match container with
          | .list _ =>
            match parse_scalar (stripped.drop 2) idx with
            | .error e => .error e
            | .ok v =>
              match appendAtPath st.root curPath v with
              | some root' => .ok ⟨root', stack⟩
              | none => .error "internal: list append failed"
          | _ =>
            .error ("List item found outside list context at line "
              ++ toString idx ++ ": " ++ stripped)
        else
          match breakAtColon stripped.toList with
          | none =>
            .error ("Invalid line " ++ toString idx ++ ": '" ++ stripped
              ++ "'. Expected key: value pattern.")
          | some (rawKey, rawVal) =>
            let key := pyStrip (String.mk rawKey)
            let value_part := pyStrip (String.mk rawVal)
            match container with
            | .map _ =>
              if value_part = "" then
                match setPath st.root (curPath ++ [key]) (.map []) with
                | some root' => .ok ⟨root', (indent, curPath ++ [key]) :: stack⟩
                | none => .error "internal: mapping insert failed"
              else
                match parse_scalar value_part idx with
                | .error e => .error e
                | .ok v =>
                  match setPath st.root (curPath ++ [key]) v with
                  | some root' =>
                    match v with
                    | .list _ => .ok ⟨root', (indent, curPath ++ [key]) :: stack⟩
                    | .map _ => .ok ⟨root', (indent, curPath ++ [key]) :: stack⟩
                    | _ => .ok ⟨root', stack⟩
                  | none => .error "internal: mapping assign failed"
            | _ =>
              .error ("Configuration structure violation near line "
                ++ toString idx ++ ": expected a mapping")

/-- `enumerate(lines, start=n)`. -/
def enumFromN (n : Nat) : List String → List (Nat × String)
  | [] => []
  | l :: ls => (n, l) :: enumFromN (n + 1) ls

/-- One accumulator step of the line loop (errors short-circuit, as a
raised `ValueError` aborts the Python loop). -/
def loadStep (acc : Except String PState) (p : Nat × String) : Except String PState :=
  match acc with
  | .error e => .error e
  | .ok st => lineStep st p.1 p.2

/-- `load_simple_yaml` from `simple_yaml.py`, over the document's line
list (`source.splitlines()` / the iterable of lines). -/
def load_simple_yaml (lines : List String) : Except String (List (String × Value)) :=
  match (enumFromN 1 lines).foldl loadStep (.ok ⟨.map [], [((-1 : Int), [])]⟩) with
  | .error e => .error e
  | .ok st =>
    match st.root with
    | .map m => .ok m
    | _ => .error "internal: root is not a mapping"

/-! ### Flat documents and duplicate keys (C10) -/

/-- The key of a flat `key: value` line. -/
def lineKey (raw : String) : String :=
  pyStrip (String.mk (((breakAtColon (pyStrip raw).toList).getD ([], [])).1))

/-- The value text of a flat `key: value` line. -/
def lineVal (raw : String) : String :=
  pyStrip (String.mk (((breakAtColon (pyStrip raw).toList).getD ([], [])).2))

/-- A top-level `key: value` line: no leading spaces, not blank, not a
comment, not a list item, contains a colon, and a non-empty value part. -/
def flatKV (raw : String) : Bool :=
  countLeadingSpaces raw == 0 && pyStrip raw != "" &&
    !(pyBeginsWith (pyStrip raw) "#") && !(pyBeginsWith (pyStrip raw) "- ") &&
    (breakAtColon (pyStrip raw).toList).isSome && lineVal raw != ""

/-- The value a flat line contributes at line number `idx` (`Value.null`
is a dummy for the error case, excluded by the theorems' hypotheses). -/
def flatVal (raw : String) (idx : Nat) : Value :=
  match parse_scalar (lineVal raw) idx with
  | .ok v => v
  | .error _ => .null

/-- The pure dict fold a flat document denotes. -/
def flatFoldFrom (n : Nat) (m : List (String × Value)) :
    List String → List (String × Value)
  | [] => m
  | raw :: rest => flatFoldFrom (n + 1) (dictSet m (lineKey raw) (flatVal raw n)) rest

/-- The stack shapes reachable while parsing a flat document: just the
root frame, or the root frame plus one pushed frame for an inline-list
value at indent 0. -/
def flatStackOk (stk : List (Int × List String)) : Prop :=
  stk = [((-1 : Int), [])] ∨ ∃ k, stk = [((0 : Int), [k]), ((-1 : Int), [])]

theorem dictFind_dictSet_self : ∀ (m : List (String × Value)) (k : String) (v : Value),
    dictFind (dictSet m k v) k = some v := by
  intro m k v
  induction m with
  | nil => simp [dictSet, dictFind]
  | cons p t ih =>
    by_cases hpk : p.1 = k
    · simp [dictSet, dictFind, hpk]
    · simp [dictSet, dictFind, hpk, ih]

theorem dictFind_dictSet_ne : ∀ (m : List (String × Value)) (k k' : String) (v : Value),
    k' ≠ k → dictFind (dictSet m k v) k' = dictFind m k' := by
  intro m k k' v hne
  have hkk' : ¬ k = k' := fun h => hne h.symm
  induction m with
  | nil => simp [dictSet, dictFind, hkk']
  | cons p t ih =>
    by_cases hpk : p.1 = k
    · have hpk' : ¬ p.1 = k' := by
        rw [hpk]
        exact hkk'
      simp [dictSet, dictFind, hpk, hpk', hkk']
    · by_cases hpk' : p.1 = k'
      · simp [dictSet, dictFind, hpk, hpk', hne]
      · simp [dictSet, dictFind, hpk, hpk', ih]

theorem setPath_root_key (m : List (String × Value)) (k : String) (v : Value) :
    setPath (.map m) [k] v = some (.map (dictSet m k v)) := by
  unfold setPath
  cases hf : dictFind m k with
  | some child => simp [setPath]
  | none => simp

theorem lineStep_flat {m : List (String × Value)} {stk : List (Int × List String)}
    (hstk : flatStackOk stk) {raw : String} {n : Nat} {v : Value}
    (hflat : flatKV raw = true)
    (hv : parse_scalar (lineVal raw) n = .ok v) :
    ∃ stk', flatStackOk stk' ∧
      lineStep ⟨.map m, stk⟩ n raw = .ok ⟨.map (dictSet m (lineKey raw) v), stk'⟩ := by
  have hparts := hflat
  simp only [flatKV, Bool.and_eq_true, beq_iff_eq, bne_iff_ne, Bool.not_eq_true'] at hparts
  obtain ⟨⟨⟨⟨⟨h0, hne⟩, hcomment⟩, hdash⟩, hcolon⟩, hval⟩ := hparts
  obtain ⟨kv, hkv⟩ := Option.isSome_iff_exists.mp hcolon
  have hlk : lineKey raw = pyStrip (String.mk kv.1) := by
    rw [lineKey, hkv]
    rfl
  have hlv : lineVal raw = pyStrip (String.mk kv.2) := by
    rw [lineVal, hkv]
    rfl
  have hpop : popFrames 0 stk = [((-1 : Int), [])] := by
    rcases hstk with rfl | ⟨k, rfl⟩ <;> simp [popFrames]
  unfold lineStep
  rw [if_neg (by simp [hne, hcomment])]
  rw [h0]
  simp only [Nat.cast_zero, hpop]
  simp only [getPath]
  rw [if_neg (by simp [hdash])]
  rw [hkv]
  dsimp only
  rw [if_neg (hlv ▸ hval)]
  rw [← hlv, hv]
  dsimp only
  rw [← hlk]
  simp only [List.nil_append]
  rw [setPath_root_key]
  cases v with
  | list l => exact ⟨_, Or.inr ⟨lineKey raw, rfl⟩, rfl⟩
  | map mm => exact ⟨_, Or.inr ⟨lineKey raw, rfl⟩, rfl⟩
  | null => exact ⟨_, Or.inl rfl, rfl⟩
  | bool b => exact ⟨_, Or.inl rfl, rfl⟩
  | int i => exact ⟨_, Or.inl rfl, rfl⟩
  | float f => exact ⟨_, Or.inl rfl, rfl⟩
  | str s => exact ⟨_, Or.inl rfl, rfl⟩

theorem flat_run : ∀ (rest : List String) (n : Nat) (m : List (String × Value))
    (stk : List (Int × List String)), flatStackOk stk →
    (∀ raw ∈ rest, flatKV raw = true) →
    (∀ raw ∈ rest, ∃ v, ∀ j, parse_scalar (lineVal raw) j = .ok v) →
    ∃ stk', flatStackOk stk' ∧
      (enumFromN n rest).foldl loadStep (.ok ⟨.map m, stk⟩)
        = .ok ⟨.map (flatFoldFrom n m rest), stk'⟩
  | [], n, m, stk, hstk, _, _ => ⟨stk, hstk, rfl⟩
  | raw :: rest, n, m, stk, hstk, hflat, hvals => by
    obtain ⟨v, hv⟩ := hvals raw (List.mem_cons_self _ _)
    obtain ⟨stk₁, hstk₁, hstep⟩ := lineStep_flat (m := m) hstk
      (hflat raw (List.mem_cons_self _ _)) (hv n)
    have hrec := flat_run rest (n + 1) (dictSet m (lineKey raw) v) stk₁ hstk₁
      (fun r hr => hflat r (List.mem_cons_of_mem _ hr))
      (fun r hr => hvals r (List.mem_cons_of_mem _ hr))
    obtain ⟨stk', hstk', hrun⟩ := hrec
    refine ⟨stk', hstk', ?_⟩
    show (enumFromN n (raw :: rest)).foldl loadStep (.ok ⟨.map m, stk⟩) = _
    rw [show enumFromN n (raw :: rest) = (n, raw) :: enumFromN (n + 1) rest from rfl,
      List.foldl_cons]
    have hls : loadStep (.ok ⟨.map m, stk⟩) (n, raw)
        = .ok ⟨.map (dictSet m (lineKey raw) v), stk₁⟩ := by
      show lineStep ⟨.map m, stk⟩ n raw = _
      exact hstep
    rw [hls, hrun]
    show _ = Except.ok ⟨Value.map
      (flatFoldFrom (n + 1) (dictSet m (lineKey raw) (flatVal raw n)) rest), stk'⟩
    have hfv : flatVal raw n = v := by
      rw [flatVal, hv n]
    rw [hfv]

theorem flatFoldFrom_append : ∀ (pre : List String) (n : Nat)
    (m : List (String × Value)) (rest : List String),
    flatFoldFrom n m (pre ++ rest)
      = flatFoldFrom (n + pre.length) (flatFoldFrom n m pre) rest
  | [], n, m, rest => by simp [flatFoldFrom]
  | raw :: pre', n, m, rest => by
    show flatFoldFrom (n + 1) (dictSet m (lineKey raw) (flatVal raw n)) (pre' ++ rest) = _
    rw [flatFoldFrom_append pre' (n + 1) _ rest]
    have h1 : n + (raw :: pre').length = (n + 1) + pre'.length := by
      simp
      omega
    rw [h1]
    rfl

theorem flatFoldFrom_find_preserved : ∀ (post : List String) (n : Nat)
    (m : List (String × Value)) (k : String) (v : Value),
    dictFind m k = some v → (∀ raw' ∈ post, lineKey raw' ≠ k) →
    dictFind (flatFoldFrom n m post) k = some v
  | [], _, _, _, _, hf, _ => hf
  | raw :: post, n, m, k, v, hf, hkeys => by
    show dictFind (flatFoldFrom (n + 1) (dictSet m (lineKey raw) (flatVal raw n)) post) k
      = some v
    apply flatFoldFrom_find_preserved post (n + 1) _ k v
    · rw [dictFind_dictSet_ne _ _ _ _
        (fun h => hkeys raw (List.mem_cons_self _ _) h.symm)]
      exact hf
    · exact fun r hr => hkeys r (List.mem_cons_of_mem _ hr)

/-- C10: in a document whose lines are all top-level `key: value` lines
(the same mapping), duplicate keys are never an error: parsing succeeds,
and each key is bound to the value of its last occurrence — for any line
whose key does not recur later, the returned mapping binds that key to
that line's coerced value. -/
theorem C10_duplicate_keys_last_wins (lines : List String)
    (hflat : ∀ raw ∈ lines, flatKV raw = true)
    (hvals : ∀ raw ∈ lines, ∃ v, ∀ j, parse_scalar (lineVal raw) j = .ok v) :
    ∃ m, load_simple_yaml lines = .ok m ∧
      ∀ pre raw post, lines = pre ++ raw :: post →
        (∀ raw' ∈ post, lineKey raw' ≠ lineKey raw) →
        dictFind m (lineKey raw) = some (flatVal raw (1 + pre.length)) := by
  obtain ⟨stk', hstk', hrun⟩ := flat_run lines 1 [] [((-1 : Int), [])]
    (Or.inl rfl) hflat hvals
  refine ⟨flatFoldFrom 1 [] lines, ?_, ?_⟩
  · unfold load_simple_yaml
    rw [hrun]
  · intro pre raw post hsplit hlast
    subst hsplit
    rw [flatFoldFrom_append]
    show dictFind (flatFoldFrom (1 + pre.length + 1)
      (dictSet (flatFoldFrom 1 [] pre) (lineKey raw)
        (flatVal raw (1 + pre.length))) post) (lineKey raw) = _
    exact flatFoldFrom_find_preserved post _ _ _ _
      (dictFind_dictSet_self _ _ _)
      (fun r hr he => hlast r hr he)

/-- C10 witness: `k` declared twice around another key; the last value
wins and parsing succeeds. -/
theorem C10_duplicate_keys_last_wins_witness :
    ∃ m, load_simple_yaml ["k: 1", "x: 2", "k: 3"] = .ok m ∧
      ∀ pre raw post, (["k: 1", "x: 2", "k: 3"] : List String) = pre ++ raw :: post →
        (∀ raw' ∈ post, lineKey raw' ≠ lineKey raw) →
        dictFind m (lineKey raw) = some (flatVal raw (1 + pre.length)) :=
  C10_duplicate_keys_last_wins _ (by decide)
    (by
      intro raw hr
      simp only [List.mem_cons, List.mem_singleton, List.not_mem_nil, or_false] at hr
      rcases hr with rfl | rfl | rfl
      · exact ⟨.int 1, fun j => rfl⟩
      · exact ⟨.int 2, fun j => rfl⟩
      · exact ⟨.int 3, fun j => rfl⟩)

/-! ### Orchestrator (`orchestrator.py`)

`AnkerSPA.run` and `AnkerSPA.promote_practice` are embedded as pure
functions over an explicit environment: the file system queried by
`promote_practice` (metrics file existence/content, existing case
directories) and the agent registry become fields/parameters; calls to
`console.print` are collected into a message list (with the interpolated
path fragments abbreviated away — no claim inspects them); a `.error`
result models an uncaught Python exception. -/

namespace AnkerSPA

/-- Python `bool(v)` on a parsed configuration value.  A float is falsy
exactly when its mantissa digits are all zero (`inf`/`nan` are truthy). -/
def pyTruthy : Value → Bool
  | .null => false
  | .bool b => b
  | .int n => n != 0
  | .float raw =>
    let mant := raw.toList.takeWhile (fun c => c ≠ 'e' && c ≠ 'E')
    let digits := mant.filter Char.isDigit
    !(!digits.isEmpty && digits.all (fun c => c = '0'))
  | .str s => s != ""
  | .list l => !l.isEmpty
  | .map m => !m.isEmpty

/-- Python `int(v)` on a parsed configuration value; `none` models the
`TypeError` raised on non-coercible values.  (Float truncation is not
modelled; no claim instantiates a float threshold.) -/
def pyIntCoerce : Value → Option Int
  | .int n => some n
  | .bool b => some (if b then 1 else 0)
  | .str s => pyInt s
  | _ => none

/-- Python `v < t` for a json score against an int threshold; `none`
models the `TypeError` on non-numeric score values. -/
def pyLtInt : Value → Int → Option Bool
  | .int n, t => some (decide (n < t))
  | .bool b, t => some (decide ((if b then (1 : Int) else 0) < t))
  | _, _ => none

/-- `self.orchestration_config.get("metrics_file",
"Output/reports/execution-metrics.json")`. -/
def metricsFileOf (cfg : List (String × Value)) : Value :=
  (dictFind cfg "metrics_file").getD (.str "Output/reports/execution-metrics.json")

/-- `int(self.orchestration_config.get("knowledge_threshold", 80))`. -/
def knowledgeThresholdOf (cfg : List (String × Value)) : Option Int :=
  pyIntCoerce ((dictFind cfg "knowledge_threshold").getD (.int 80))

/-- `bool(self.orchestration_config.get("auto_promote_practice", True))`. -/
def autoPromoteOf (cfg : List (String × Value)) : Bool :=
  pyTruthy ((dictFind cfg "auto_promote_practice").getD (.bool true))

/-- `metrics.get("overall_score", 0)`. -/
def scoreOf (metrics : List (String × Value)) : Value :=
  (dictFind metrics "overall_score").getD (.int 0)

/-- `f"{counter:02d}"`. -/
def pad2 (c : Nat) : String := if c < 10 then "0" ++ toString c else toString c

/-- `f"case-{timestamp}{suffix}"` with
`suffix = f"-{counter:02d}" if counter else ""`. -/
def alloc_candidate (ts : String) (c : Nat) : String :=
  "case-" ++ ts ++ (if c = 0 then "" else "-" ++ pad2 c)

/-- The `while True: ... counter += 1` search, fueled (the Python loop
terminates whenever some candidate name is unused, which the theorems
hypothesize). -/
def allocSearch (ex : String → Bool) (ts : String) : Nat → Nat → Option String
  | _, 0 => none
  | c, fuel + 1 =>
    if ex (alloc_candidate ts c) then allocSearch ex ts (c + 1) fuel
    else some (alloc_candidate ts c)

/-- Case-directory allocation of `promote_practice`, over the existing
directory predicate `ex` and the formatted timestamp. -/
def allocate_case (ex : String → Bool) (ts : String) (fuel : Nat) : Option String :=
  allocSearch ex ts 0 fuel

/-- Everything `promote_practice` reads from its surroundings. -/
structure PromoteEnv where
  config : List (String × Value)
  metrics_file_exists : Bool
  metrics_json : Option (List (String × Value))
  dir_exists : String → Bool
  timestamp : String
  alloc_fuel : Nat

/-- `AnkerSPA.promote_practice`, returning the created case directory (or
`none`) together with the emitted console messages. -/
def promote_practice (env : PromoteEnv) :
    Except String (Option String × List String) :=
  if !(autoPromoteOf env.config) then
    .ok (none, ["Auto practice promotion disabled; skipping."])
  else if !env.metrics_file_exists then
    .ok (none, [])
  else
    match env.metrics_json with
    | none => .ok (none, ["Failed to parse metrics file"])
    | some metrics =>
      match knowledgeThresholdOf env.config with
      | none => .error "TypeError: knowledge_threshold not int-coercible"
      | some threshold =>
        match pyLtInt (scoreOf metrics) threshold with
        | none => .error "TypeError: overall_score not comparable"
        | some below =>
          if below then
            .ok (none, ["Overall score below threshold; skipping promotion."])
          else
            match allocate_case env.dir_exists env.timestamp env.alloc_fuel with
            | none => .error "unreachable: allocation fuel exhausted"
            | some case_path =>
              .ok (some case_path, ["Practice case created: " ++ case_path])

/-- The execution loop of `AnkerSPA.run` over the (filtered) stage queue:
a missing agent aborts the whole run, otherwise the stage key is recorded. -/
def runLoop (registryHas : String → Bool) :
    List StageDefinition → List String → Except String (List String)
  | [], acc => .ok acc
  | s :: rest, acc =>
    if registryHas s.agent then runLoop registryHas rest (acc ++ [s.key])
    else .error ("Agent for stage " ++ s.key ++ " not found: " ++ s.agent)

/-- `AnkerSPA.run`: order the stages, apply the (Python-truthiness) stage
filter, then execute sequentially.  `stagesFilter = []` plays the role of
both `None` and an empty sequence, which Python's `if stages:` treats
alike. -/
def run (w : WorkflowDefinition) (registryHas : String → Bool)
    (stagesFilter : List String) : Except String (List String) :=
  match w.ordered_stages with
  | .error e => .error e
  | .ok ordered =>
    let stage_queue := if !stagesFilter.isEmpty then
        ordered.filter (fun s =>
          stagesFilter.contains s.key || stagesFilter.contains s.agent)
      else ordered
    runLoop registryHas stage_queue []

end AnkerSPA

namespace AnkerSPA

theorem allocSearch_spec (ex : String → Bool) (ts : String) :
    ∀ (fuel c₀ : Nat) (r : String),
      allocSearch ex ts c₀ fuel = some r ↔
        ∃ k, k < fuel ∧ r = alloc_candidate ts (c₀ + k) ∧
          ex (alloc_candidate ts (c₀ + k)) = false ∧
          ∀ j, j < k → ex (alloc_candidate ts (c₀ + j)) = true
  | 0, c₀, r => by simp [allocSearch]
  | fuel + 1, c₀, r => by
    by_cases hex : ex (alloc_candidate ts c₀) = true
    · rw [show allocSearch ex ts c₀ (fuel + 1)
          = allocSearch ex ts (c₀ + 1) fuel by simp [allocSearch, hex]]
      rw [allocSearch_spec ex ts fuel (c₀ + 1) r]
      constructor
      · rintro ⟨k, hk, hr, hfree, hbusy⟩
        refine ⟨k + 1, by omega, ?_, ?_, ?_⟩
        · rw [hr]
          congr 1
          omega
        · have : c₀ + (k + 1) = c₀ + 1 + k := by omega
          rw [this]
          exact hfree
        · intro j hj
          rcases Nat.eq_zero_or_pos j with rfl | hpos
          · simpa using hex
          · have : c₀ + j = c₀ + 1 + (j - 1) := by omega
            rw [this]
            exact hbusy (j - 1) (by omega)
      · rintro ⟨k, hk, hr, hfree, hbusy⟩
        rcases Nat.eq_zero_or_pos k with rfl | hpos
        · rw [Nat.add_zero] at hfree
          rw [hfree] at hex
          cases hex
        · refine ⟨k - 1, by omega, ?_, ?_, ?_⟩
          · rw [hr]
            congr 1
            omega
          · have : c₀ + 1 + (k - 1) = c₀ + k := by omega
            rw [this]
            exact hfree
          · intro j hj
            have : c₀ + 1 + j = c₀ + (j + 1) := by omega
            rw [this]
            exact hbusy (j + 1) (by omega)
    · have hex' : ex (alloc_candidate ts c₀) = false := by
        cases h : ex (alloc_candidate ts c₀)
        · rfl
        · exact absurd h hex
      rw [show allocSearch ex ts c₀ (fuel + 1)
          = some (alloc_candidate ts c₀) by simp [allocSearch, hex']]
      constructor
      · intro h
        injection h with h'
        exact ⟨0, by omega, by rw [← h']; simp, by simpa using hex', by omega⟩
      · rintro ⟨k, hk, hr, hfree, hbusy⟩
        rcases Nat.eq_zero_or_pos k with rfl | hpos
        · rw [hr]
          simp
        · have := hbusy 0 hpos
          rw [Nat.add_zero] at this
          rw [this] at hex'
          cases hex'

end AnkerSPA

/-- C4 counterexample: when `case-<ts>` already exists, the next
allocated name is `case-<ts>-01` — the suffix `-00` claimed by the spec
is never produced (`f"-{counter:02d}" if counter else ""` skips
`counter = 0`). -/
theorem C4_counterexample :
    AnkerSPA.allocate_case (fun s => s == "case-20240101-120000")
        "20240101-120000" 3 = some "case-20240101-120000-01" ∧
      "case-20240101-120000-01" ≠ "case-20240101-120000-00" :=
  ⟨rfl, by decide⟩

/-- C4 (amended): the first case for a timestamp is named from the
timestamp alone; when taken, the zero-padded suffixes `-01`, `-02`, …
are tried in order, and the allocator returns the first unused name —
hence never an existing directory, and two promotions within one
timestamp yield `case-<ts>` then `case-<ts>-01`. -/
theorem C4_allocation_first_free (ex : String → Bool) (ts : String)
    (fuel : Nat) (r : String) :
    AnkerSPA.allocate_case ex ts fuel = some r ↔
      ∃ c, c < fuel ∧ r = AnkerSPA.alloc_candidate ts c ∧
        ex (AnkerSPA.alloc_candidate ts c) = false ∧
        ∀ c', c' < c → ex (AnkerSPA.alloc_candidate ts c') = true := by
  unfold AnkerSPA.allocate_case
  rw [AnkerSPA.allocSearch_spec]
  simp

/-- C4 witness: the amended characterization applied to the concrete
collision above. -/
theorem C4_allocation_first_free_witness :
    ∃ c, c < 3 ∧ "case-20240101-120000-01"
        = AnkerSPA.alloc_candidate "20240101-120000" c ∧
      (fun s => s == "case-20240101-120000")
          (AnkerSPA.alloc_candidate "20240101-120000" c) = false ∧
      ∀ c', c' < c → (fun s => s == "case-20240101-120000")
          (AnkerSPA.alloc_candidate "20240101-120000" c') = true :=
  (C4_allocation_first_free (fun s => s == "case-20240101-120000")
    "20240101-120000" 3 "case-20240101-120000-01").mp rfl

/-- C5: `promote_practice` returns no case exactly when auto-promotion
is off, the metrics file is missing, the metrics fail to parse, or the
score is below the threshold; a missing metrics file additionally reports
nothing; otherwise a case directory is created and returned. -/
theorem C5_promotion_gating (env : AnkerSPA.PromoteEnv) (t : Int)
    (ht : AnkerSPA.knowledgeThresholdOf env.config = some t)
    (hsc : ∀ metrics, env.metrics_json = some metrics →
      ∃ n : Int, AnkerSPA.scoreOf metrics = .int n)
    (hfree : (AnkerSPA.allocate_case env.dir_exists env.timestamp
      env.alloc_fuel).isSome = true) :
    ∃ res, AnkerSPA.promote_practice env = .ok res ∧
      ((res.1 = none) ↔
        (AnkerSPA.autoPromoteOf env.config = false ∨
         env.metrics_file_exists = false ∨ env.metrics_json = none ∨
         ∃ metrics n, env.metrics_json = some metrics ∧
           AnkerSPA.scoreOf metrics = Value.int n ∧ n < t)) ∧
      (AnkerSPA.autoPromoteOf env.config = true →
        env.metrics_file_exists = false → res = (none, [])) := by
  by_cases hauto : AnkerSPA.autoPromoteOf env.config = true
  · by_cases hex : env.metrics_file_exists = true
    · cases hjson : env.metrics_json with
      | none =>
        refine ⟨(none, ["Failed to parse metrics file"]), ?_, ?_, ?_⟩
        · simp [AnkerSPA.promote_practice, hauto, hex, hjson]
        · simp
        · intro _ hf
          rw [hf] at hex
          cases hex
      | some metrics =>
        obtain ⟨n, hn⟩ := hsc metrics hjson
        by_cases hlt : n < t
        · refine ⟨(none, ["Overall score below threshold; skipping promotion."]),
            ?_, ?_, ?_⟩
          · simp [AnkerSPA.promote_practice, hauto, hex, hjson, ht,
              AnkerSPA.pyLtInt, hn, hlt]
          · simp only [true_iff]
            exact Or.inr (Or.inr (Or.inr ⟨metrics, n, rfl, hn, hlt⟩))
          · intro _ hf
            rw [hf] at hex
            cases hex
        · obtain ⟨case_path, hcase⟩ := Option.isSome_iff_exists.mp hfree
          refine ⟨(some case_path, ["Practice case created: " ++ case_path]),
            ?_, ?_, ?_⟩
          · simp [AnkerSPA.promote_practice, hauto, hex, hjson, ht,
              AnkerSPA.pyLtInt, hn, hlt, hcase]
          · simp only [reduceCtorEq, false_iff]
            push_neg
            refine ⟨by simp [hauto], by simp [hex], by simp, ?_⟩
            rintro metrics' n' hj' hn'
            injection hj' with hj''
            subst hj''
            rw [hn] at hn'
            injection hn' with hnn
            omega
          · intro _ hf
            rw [hf] at hex
            cases hex
    · have hex' : env.metrics_file_exists = false := by
        cases h : env.metrics_file_exists
        · rfl
        · exact absurd h hex
      refine ⟨(none, []), ?_, ?_, ?_⟩
      · simp [AnkerSPA.promote_practice, hauto, hex']
      · simp [hex']
      · intro _ _
        rfl
  · have hauto' : AnkerSPA.autoPromoteOf env.config = false := by
      cases h : AnkerSPA.autoPromoteOf env.config
      · rfl
      · exact absurd h hauto
    refine ⟨(none, ["Auto practice promotion disabled; skipping."]), ?_, ?_, ?_⟩
    · simp [AnkerSPA.promote_practice, hauto']
    · simp [hauto']
    · intro hf
      rw [hf] at hauto'
      cases hauto'

/-- C5 witness: score 80 against threshold 80 (both defaulted/explicit)
creates a case; the gating equivalence is instantiated concretely. -/
theorem C5_promotion_gating_witness :
    ∃ res, AnkerSPA.promote_practice
        ⟨[], true, some [("overall_score", Value.int 80)],
          fun _ => false, "20240101-120000", 1⟩ = .ok res ∧
      ((res.1 = none) ↔
        (AnkerSPA.autoPromoteOf [] = false ∨ (true : Bool) = false ∨
         (some [("overall_score", Value.int 80)]
            : Option (List (String × Value))) = none ∨
         ∃ metrics n,
           (some [("overall_score", Value.int 80)]
              : Option (List (String × Value))) = some metrics ∧
             AnkerSPA.scoreOf metrics = Value.int n ∧ n < 80)) ∧
      (AnkerSPA.autoPromoteOf [] = true → (true : Bool) = false →
        res = (none, [])) :=
  C5_promotion_gating _ 80 rfl
    (by
      intro m h
      injection h with h'
      exact ⟨80, by rw [← h']; rfl⟩)
    rfl

/-- Registry covering the agents of `wChain`. -/
def regChain : String → Bool := fun a => a == "agent-one" || a == "agent-two"

namespace AnkerSPA

theorem runLoop_all_ok (registryHas : String → Bool) :
    ∀ (l : List StageDefinition) (acc : List String),
      (∀ s ∈ l, registryHas s.agent = true) →
      runLoop registryHas l acc = .ok (acc ++ l.map (fun s => s.key))
  | [], acc, _ => by simp [runLoop]
  | s :: rest, acc, hreg => by
    rw [show runLoop registryHas (s :: rest) acc
        = runLoop registryHas rest (acc ++ [s.key]) by
      simp [runLoop, hreg s (List.mem_cons_self _ _)]]
    rw [runLoop_all_ok registryHas rest (acc ++ [s.key])
      (fun x hx => hreg x (List.mem_cons_of_mem _ hx))]
    simp

end AnkerSPA

/-- C8 counterexample: with an *empty* stage filter, `run()` executes
every stage (`if stages:` is falsy), although the claim's description
("exactly the stages whose key or agent id appears in the filter")
denotes the empty selection. -/
theorem C8_counterexample :
    AnkerSPA.run wChain regChain [] = .ok ["s1", "s2"] ∧
    wChain.ordered_stages
      = .ok [mkStage "s1" "agent-one" [], mkStage "s2" "agent-two" ["s1"]] ∧
    (([mkStage "s1" "agent-one" [], mkStage "s2" "agent-two" ["s1"]].filter
        (fun s => ([] : List String).contains s.key
          || ([] : List String).contains s.agent)).map (fun s => s.key)) = [] ∧
    (["s1", "s2"] : List String) ≠ ([] : List String) :=
  ⟨rfl, rfl, rfl, by decide⟩

/-- C8 (amended): with a *non-empty* stage filter whose retained agents
all resolve, `run()` executes exactly the ordered stages whose key or
agent id appears in the filter, in the unfiltered order (the filter
never re-sorts); an empty filter is treated like an absent one and runs
everything. -/
theorem C8_stage_filter {w : WorkflowDefinition} {reg : String → Bool}
    {f : List String} (hne : f ≠ []) {l : List StageDefinition}
    (hok : w.ordered_stages = .ok l)
    (hreg : ∀ s ∈ l, (f.contains s.key || f.contains s.agent) = true →
      reg s.agent = true) :
    AnkerSPA.run w reg f
      = .ok ((l.filter (fun s => f.contains s.key || f.contains s.agent)).map
          (fun s => s.key)) := by
  unfold AnkerSPA.run
  rw [hok]
  have hfe : f.isEmpty = false := by
    cases f with
    | nil => exact absurd rfl hne
    | cons a t => rfl
  simp only [hfe, Bool.not_false, if_true, ite_true]
  rw [AnkerSPA.runLoop_all_ok reg _ []
    (fun s hs => hreg s (List.mem_filter.mp hs).1 (List.mem_filter.mp hs).2)]
  simp

/-- C8 witness: filtering `wChain` to the agent id `agent-two`. -/
theorem C8_stage_filter_witness :
    AnkerSPA.run wChain regChain ["agent-two"]
      = .ok ((([mkStage "s1" "agent-one" [], mkStage "s2" "agent-two" ["s1"]].filter
          (fun s => (["agent-two"] : List String).contains s.key
            || (["agent-two"] : List String).contains s.agent)).map
          (fun s => s.key))) :=
  C8_stage_filter (by decide) rfl (by decide)

/-- C9 counterexample: the code's default metrics path is
`Output/reports/execution-metrics.json`, not the
`reports/execution-metrics.json` stated by the spec. -/
theorem C9_counterexample :
    AnkerSPA.metricsFileOf []
      = .str "Output/reports/execution-metrics.json" ∧
    Value.str "Output/reports/execution-metrics.json"
      ≠ Value.str "reports/execution-metrics.json" :=
  ⟨rfl, by
    intro h
    injection h with h'
    exact absurd h' (by decide)⟩

/-- C9 (amended): when the orchestration configuration omits
`metrics_file`, the default path is
`Output/reports/execution-metrics.json` (relative to the SPA root); when
it omits `knowledge_threshold`, the threshold defaults to 80. -/
theorem C9_config_defaults (cfg : List (String × Value))
    (h1 : dictFind cfg "metrics_file" = none)
    (h2 : dictFind cfg "knowledge_threshold" = none) :
    AnkerSPA.metricsFileOf cfg
        = .str "Output/reports/execution-metrics.json" ∧
      AnkerSPA.knowledgeThresholdOf cfg = some 80 := by
  unfold AnkerSPA.metricsFileOf AnkerSPA.knowledgeThresholdOf
  rw [h1, h2]
  exact ⟨rfl, rfl⟩

/-- C9 witness: the empty configuration. -/
theorem C9_config_defaults_witness :
    AnkerSPA.metricsFileOf []
        = .str "Output/reports/execution-metrics.json" ∧
      AnkerSPA.knowledgeThresholdOf [] = some 80 :=
  C9_config_defaults [] rfl rfl
